import Mathlib

/-!
Verification development for a single-node blockchain settlement ledger.

The development shallowly embeds the core ledger engine: transactions
(src/core/Transaction.ts), hashing and signature primitives
(src/crypto/Hash.ts, src/crypto/Signature.ts), blocks (src/core/Block.ts) and
the chain/UTXO bookkeeping (src/core/Blockchain.ts).  JavaScript strings are
modelled as lists of characters, JavaScript numbers carrying monetary amounts
as rationals (the concrete values manipulated by the program are small enough
that IEEE doubles are exact on them), and the two external cryptographic
collaborators (node's crypto SHA-256 and the elliptic secp256k1 library) are
modelled abstractly: every core definition is parameterised by the hash
function, and signatures are modelled as an ideal scheme whose verification
succeeds exactly on the token produced by signing with the matching key.
Mutation of the ledger object is modelled by explicit state passing, and the
unbounded proof-of-work search loop by a fuel-indexed search returning an
option (the source loop terminates exactly when some nonce works).
-/

set_option maxRecDepth 100000

attribute [local semireducible] Rat.add Rat.sub Rat.mul Rat.inv

/-- Model of JavaScript strings: finite sequences of characters. -/
abbrev JSStr := List Char

/-- Embed a Lean string literal as a modelled JavaScript string. -/
def js (s : String) : JSStr := s.data

/-- Decimal digit character for a digit value below ten. -/
def digitChar10 (d : Nat) : Char := Char.ofNat (48 + d)

/-- Digit accumulation loop of the decimal rendering.  The fuel argument
only pads the recursion into a structural one the kernel can evaluate; it
is always called with enough fuel (an extra division by ten per step). -/
def natStrAux (fuel n : Nat) : JSStr :=
  if n < 10 then [digitChar10 n]
  else
    match fuel with
    | 0 => []
    | f + 1 => natStrAux f (n / 10) ++ [digitChar10 (n % 10)]

/-- Decimal rendering of a natural number, modelling JavaScript
number-to-string conversion for the nonnegative integers handled here. -/
def natStr (n : Nat) : JSStr := natStrAux n n

/-- Decimal rendering of an integer, modelling JavaScript template
interpolation of an integral number. -/
def intStr : Int → JSStr
  | .ofNat n => natStr n
  | .negSucc n => '-' :: natStr (n + 1)

/-- Injective rendering of a rational amount, modelling the (lossless,
shortest round-trip) JavaScript rendering of a number.  The exact character
syntax is immaterial to the program: only determinism matters, so the
numerator and denominator of the normal form are printed. -/
def ratStr (q : Rat) : JSStr := intStr q.num ++ js "/" ++ natStr q.den

/-- Quote a modelled string, as JSON.stringify quotes string fields. -/
def encStr (s : JSStr) : JSStr := '"' :: (s ++ ['"'])

/-- Comma-join a list of encoded fragments. -/
def joinComma : List JSStr → JSStr
  | [] => []
  | [x] => x
  | x :: y :: r => x ++ ',' :: joinComma (y :: r)

/-- Bracket a list of encoded fragments, as JSON.stringify encodes an array. -/
def encList (l : List JSStr) : JSStr := '[' :: (joinComma l ++ [']'])

/-- Encoding of an optional string field: the program serialises a missing
data payload as the empty string (the source writes data || ''). -/
def encOpt : Option JSStr → JSStr
  | none => []
  | some s => s

/-- Cheap deterministic digest core used to instantiate the abstract hash
parameter on concrete witness inputs. -/
def hashNat (s : JSStr) : Nat :=
  s.foldl (fun a c => (a * 131 + c.toNat + 1) % 999983) 7

/-- Concrete stand-in for SHA-256 used by witnesses: a deterministic digest
rendered with four leading zero characters (so that concrete proof-of-work
searches at the difficulties appearing in witness runs terminate at once). -/
def testHash (s : JSStr) : JSStr := js "0000" ++ natStr (hashNat s)

/-- The all-zero 64-character sentinel transaction id used by coinbase
inputs and the genesis block's previous hash. -/
def zeros64 : JSStr := List.replicate 64 '0'

/-! ## Signature primitives

Modelled from the external elliptic (secp256k1) library used by
src/crypto/Signature.ts: an ideal signature scheme.  Public-key derivation is
an injective function of the private key; signing produces a token binding
the hash of the signed data and the signer's public key, mirroring
Signature.sign which hashes the data with SHA-256 before signing; and
verification succeeds exactly on the token produced with the matching key. -/

namespace Sig

/-- Model of Signature.getPublicKey: injective public-key derivation. -/
def getPublicKey (priv : JSStr) : JSStr := js "pub[" ++ priv ++ js "]"

/-- Model of Signature.sign: hashes the data and binds it to the key pair. -/
def sign (H : JSStr → JSStr) (data priv : JSStr) : JSStr :=
  js "sig[" ++ H data ++ js "|" ++ getPublicKey priv ++ js "]"

/-- Model of Signature.verify: succeeds exactly on the signature produced
over the same data by the private key matching the given public key. -/
def verify (H : JSStr → JSStr) (data sig pub : JSStr) : Bool :=
  decide (sig = js "sig[" ++ H data ++ js "|" ++ pub ++ js "]")

end Sig

/-! ## Transaction data model (src/core/Transaction.ts) -/

/-- A transaction input: reference to a previous output plus ownership data. -/
structure TransactionInput where
  txId : JSStr
  outputIndex : Int
  signature : JSStr
  publicKey : JSStr
  amount : Rat
  scriptSig : Option JSStr := none
  deriving DecidableEq, Repr

/-- A transaction output: destination address and amount. -/
structure TransactionOutput where
  address : JSStr
  amount : Rat
  scriptPubKey : Option JSStr := none
  deriving DecidableEq, Repr

/-- A transaction. -/
structure Transaction where
  id : JSStr
  timestamp : Nat
  inputs : List TransactionInput
  outputs : List TransactionOutput
  fee : Rat
  version : Nat
  lockTime : Nat
  data : Option JSStr
  deriving DecidableEq, Repr

/-- Encoding of the input projection serialised into the id payload:
Transaction.calculateHash keeps only txId, outputIndex, amount and publicKey
of each input (signatures and scriptSig are deliberately excluded). -/
def encInputHash (i : TransactionInput) : JSStr :=
  js "in(" ++ encStr i.txId ++ js "," ++ intStr i.outputIndex ++ js "," ++
    ratStr i.amount ++ js "," ++ encStr i.publicKey ++ js ")"

/-- Encoding of a full output, as serialised into the id payload. -/
def encOutput (o : TransactionOutput) : JSStr :=
  js "out(" ++ encStr o.address ++ js "," ++ ratStr o.amount ++ js "," ++
    encOpt o.scriptPubKey ++ js ")"

/-- The canonical id payload of Transaction.calculateHash: timestamp, the
signature-free input projections, the outputs, version, lockTime and the
data payload (empty string when absent). -/
def encTxHashPayload (t : Transaction) : JSStr :=
  js "tx(" ++ natStr t.timestamp ++ js "," ++
    encList (t.inputs.map encInputHash) ++ js "," ++
    encList (t.outputs.map encOutput) ++ js "," ++
    natStr t.version ++ js "," ++ natStr t.lockTime ++ js "," ++
    encOpt t.data ++ js ")"

/-- The signing payload of Transaction.signTransaction and
Transaction.verifySignatures: referenced output id and index, input amount
and the transaction timestamp. -/
def encSigPayload (txId : JSStr) (outputIndex : Int) (amount : Rat)
    (timestamp : Nat) : JSStr :=
  js "sigdata(" ++ encStr txId ++ js "," ++ intStr outputIndex ++ js "," ++
    ratStr amount ++ js "," ++ natStr timestamp ++ js ")"

namespace Transaction

/-- Model of Transaction.calculateHash: hash of the canonical payload. -/
def calculateHash (H : JSStr → JSStr) (t : Transaction) : JSStr :=
  H (encTxHashPayload t)

/-- Model of the Transaction constructor: records the given inputs, outputs
and data payload, stamps the creation time (Date.now is passed explicitly as
now), zeroes the fee, sets version 1 and lockTime 0, and computes the id. -/
def create (H : JSStr → JSStr) (now : Nat) (inputs : List TransactionInput)
    (outputs : List TransactionOutput) (data : Option JSStr) : Transaction :=
  let t : Transaction :=
    { id := []
      timestamp := now
      inputs := inputs
      outputs := outputs
      fee := 0
      version := 1
      lockTime := 0
      data := data }
  { t with id := calculateHash H t }

/-- Failure modes of Transaction.signTransaction.  indexOutOfBounds models
the explicit 'Input index out of bounds' error; keyMismatch the explicit
'Private key does not match input public key' error; undefinedAccess the
TypeError raised when a negative index makes inputs[inputIndex] undefined
and its publicKey property is read. -/
inductive SignError where
  | indexOutOfBounds
  | keyMismatch
  | undefinedAccess
  deriving DecidableEq, Repr

/-- Model of Transaction.signTransaction.  Mutation is modelled by returning
the updated transaction; a thrown error leaves the original unchanged. -/
def signTransaction (H : JSStr → JSStr) (t : Transaction) (priv : JSStr)
    (i : Int) : Except SignError Transaction :=
  if (t.inputs.length : Int) ≤ i then .error .indexOutOfBounds
  else
    match (if 0 ≤ i then t.inputs.get? i.toNat else none) with
    | none => .error .undefinedAccess
    | some input =>
      if input.publicKey ≠ Sig.getPublicKey priv then .error .keyMismatch
      else
        let payload := encSigPayload input.txId input.outputIndex
          input.amount t.timestamp
        let input' := { input with signature := Sig.sign H payload priv }
        .ok { t with inputs := t.inputs.set i.toNat input' }

/-- Model of Transaction.verifySignatures: every input must carry a
non-empty signature and public key (JavaScript falsiness of the empty
string) and the signature must verify over the fixed signing payload. -/
def verifySignatures (H : JSStr → JSStr) (t : Transaction) : Bool :=
  t.inputs.all fun i =>
    !(decide (i.signature = [])) && !(decide (i.publicKey = [])) &&
      Sig.verify H (encSigPayload i.txId i.outputIndex i.amount t.timestamp)
        i.signature i.publicKey

/-- The fee computed by Transaction.calculateFee: total input amount minus
total output amount (the write to this.fee is modelled at its call sites). -/
def computeFee (t : Transaction) : Rat :=
  (t.inputs.map (·.amount)).sum - (t.outputs.map (·.amount)).sum

/-- Model of Transaction.isCoinbase: exactly one input, referencing the
all-zero sentinel id with output index -1. -/
def isCoinbase (t : Transaction) : Bool :=
  decide (t.inputs.length = 1) &&
    (match t.inputs with
     | i :: _ => decide (i.txId = zeros64) && decide (i.outputIndex = -1)
     | [] => false)

/-- Every output carries a positive amount. -/
def outputsPositive (t : Transaction) : Bool :=
  t.outputs.all fun o => decide (0 < o.amount)

/-- Model of Transaction.isValid (its returned boolean; the side effect on
this.fee is modelled separately by feeEffect).  The source's sequence of
early returns is the short-circuit conjunction written here. -/
def isValid (H : JSStr → JSStr) (t : Transaction) : Bool :=
  if t.inputs.length = 0 ∧ t.outputs.length = 0 then false
  else if t.isCoinbase then t.outputsPositive
  else
    t.verifySignatures H && t.outputsPositive && decide (0 ≤ t.computeFee)

/-- The side effect of a Transaction.isValid call on this.fee: the stored
fee is overwritten with the computed fee exactly when control reaches the
this.calculateFee() line, i.e. for a non-coinbase, non-degenerate
transaction whose signatures verify and whose outputs are all positive. -/
def feeEffect (H : JSStr → JSStr) (t : Transaction) : Transaction :=
  if t.inputs.length = 0 ∧ t.outputs.length = 0 then t
  else if t.isCoinbase then t
  else if t.verifySignatures H && t.outputsPositive then
    { t with fee := t.computeFee }
  else t

/-- Model of Transaction.createCoinbase: sentinel input, single reward
output, data payload naming the block height, id recomputed after the data
payload is set. -/
def createCoinbase (H : JSStr → JSStr) (minerAddress : JSStr) (reward : Rat)
    (blockHeight : Nat) (now : Nat) : Transaction :=
  let coinbaseInput : TransactionInput :=
    { txId := zeros64
      outputIndex := -1
      signature := []
      publicKey := []
      amount := reward }
  let coinbaseOutput : TransactionOutput :=
    { address := minerAddress, amount := reward }
  let t := create H now [coinbaseInput] [coinbaseOutput] none
  let t := { t with data := some (js "Coinbase for block " ++ natStr blockHeight) }
  { t with id := calculateHash H t }

/-- The serialised form of a transaction.  JSON.stringify followed by
JSON.parse is lossless on these records, so the serialised string is
modelled by the record of serialised fields itself. -/
structure Json where
  id : JSStr
  timestamp : Nat
  inputs : List TransactionInput
  outputs : List TransactionOutput
  fee : Rat
  version : Nat
  lockTime : Nat
  data : Option JSStr
  deriving DecidableEq, Repr

/-- Model of Transaction.toJSON. -/
def toJSONData (t : Transaction) : Json :=
  { id := t.id
    timestamp := t.timestamp
    inputs := t.inputs
    outputs := t.outputs
    fee := t.fee
    version := t.version
    lockTime := t.lockTime
    data := t.data }

/-- Model of Transaction.fromJSON: the constructor runs on the parsed
inputs, outputs and data (with the deserialisation wall-clock time now),
then id, timestamp, fee, version and lockTime are overwritten from the
parsed record. -/
def fromJSONData (H : JSStr → JSStr) (now : Nat) (d : Json) : Transaction :=
  let t := create H now d.inputs d.outputs d.data
  { t with
    id := d.id
    timestamp := d.timestamp
    fee := d.fee
    version := d.version
    lockTime := d.lockTime }

/-- The full serialised encoding of a transaction, used by
Transaction.getSize to measure the byte length of toJSON output. -/
def encInputFull (i : TransactionInput) : JSStr :=
  js "inF(" ++ encStr i.txId ++ js "," ++ intStr i.outputIndex ++ js "," ++
    encStr i.signature ++ js "," ++ encStr i.publicKey ++ js "," ++
    ratStr i.amount ++ js "," ++ encOpt i.scriptSig ++ js ")"

/-- Serialised text of Transaction.toJSON, for size measurement. -/
def encJson (t : Transaction) : JSStr :=
  js "txJ(" ++ encStr t.id ++ js "," ++ natStr t.timestamp ++ js "," ++
    encList (t.inputs.map encInputFull) ++ js "," ++
    encList (t.outputs.map encOutput) ++ js "," ++
    ratStr t.fee ++ js "," ++ natStr t.version ++ js "," ++
    natStr t.lockTime ++ js "," ++ encOpt t.data ++ js ")"

/-- Model of Transaction.getSize: length of the serialised form. -/
def getSize (t : Transaction) : Nat := (encJson t).length

end Transaction

/-! ## Hashing utilities (src/crypto/Hash.ts) -/

namespace HashUtil

/-- One pairing pass of Hash.calculateMerkleRoot's while loop: adjacent
nodes are concatenated and hashed; a trailing odd node is concatenated with
itself. -/
def pairUp (H : JSStr → JSStr) : List JSStr → List JSStr
  | [] => []
  | [x] => [H (x ++ x)]
  | x :: y :: r => H (x ++ y) :: pairUp H r

/-- The while loop of Hash.calculateMerkleRoot: repeat pairing passes until
one node remains and return it, with the loop-entry test length > 1 of the
source.  The fuel argument only pads the recursion into a structural one
the kernel can evaluate; since every pass at least halves a list of length
two or more, a fuel of the list length always suffices, and the fuel-0
branch is never reached on such calls. -/
def climbAux (H : JSStr → JSStr) : Nat → List JSStr → JSStr
  | _, [] => []
  | _, [x] => x
  | 0, x :: _ :: _ => x
  | fuel + 1, x :: y :: r => climbAux H fuel (pairUp H (x :: y :: r))

/-- The while loop of Hash.calculateMerkleRoot, entered on the hashed
leaf level. -/
def climb (H : JSStr → JSStr) (l : List JSStr) : JSStr :=
  climbAux H l.length l

/-- Model of Hash.calculateMerkleRoot: hash of the empty string on no
input, hash of the single id on one input, and otherwise the bottom-up
tree built from the hashed leaves. -/
def calculateMerkleRoot (H : JSStr → JSStr) (transactions : List JSStr) :
    JSStr :=
  if transactions = [] then H []
  else if transactions.length = 1 then H (transactions.headD [])
  else climb H (transactions.map H)

/-- Model of String.prototype.startsWith: the leading characters, as many
as the search string has, equal the search string. -/
def jsStartsWith (s target : JSStr) : Bool :=
  decide (s.take target.length = target)

/-- Model of Hash.meetsDifficulty: the first difficulty characters of the
hash (fewer if the hash is shorter, in which case the comparison fails)
are all the zero character. -/
def meetsDifficulty (hash : JSStr) (difficulty : Nat) : Bool :=
  decide (hash.take difficulty = List.replicate difficulty '0')

/-- Model of Hash.adjustDifficulty: bounded one-step retarget driven by
the ratio of actual to expected time. -/
def adjustDifficulty (currentDifficulty : Nat) (timeExpected timeActual : Rat) :
    Nat :=
  let r := timeActual / timeExpected
  if 4 < r then max 1 (currentDifficulty - 1)
  else if r < 1 / 4 then currentDifficulty + 1
  else currentDifficulty

end HashUtil

/-- Reference bottom-up Merkle definition stated by the specification: the
empty input hashes the empty string; otherwise the leaves are hashed and
levels are collapsed pairwise bottom-up, the odd trailing node at a level
being paired with itself, until a single root remains (for a single leaf
that root is just the hashed leaf). -/
def merkleRootRef (H : JSStr → JSStr) (ids : List JSStr) : JSStr :=
  if ids = [] then H [] else HashUtil.climb H (ids.map H)

/-! ## Block data model (src/core/Block.ts) -/

/-- A block header. -/
structure BlockHeader where
  version : Nat
  previousHash : JSStr
  merkleRoot : JSStr
  timestamp : Nat
  difficulty : Nat
  nonce : Nat
  height : Nat
  deriving DecidableEq, Repr

/-- A block. -/
structure Block where
  header : BlockHeader
  transactions : List Transaction
  hash : JSStr
  size : Nat
  deriving DecidableEq, Repr

/-- Serialised header payload hashed by Block.calculateHash. -/
def encHeader (h : BlockHeader) : JSStr :=
  js "hdr(" ++ natStr h.version ++ js "," ++ encStr h.previousHash ++
    js "," ++ encStr h.merkleRoot ++ js "," ++ natStr h.timestamp ++
    js "," ++ natStr h.difficulty ++ js "," ++ natStr h.nonce ++ js "," ++
    natStr h.height ++ js ")"

namespace Block

/-- Model of Block.calculateMerkleRoot: hash of the empty string for an
empty transaction list, otherwise the Merkle root of the transaction ids. -/
def calculateMerkleRoot (H : JSStr → JSStr) (b : Block) : JSStr :=
  if b.transactions = [] then H []
  else HashUtil.calculateMerkleRoot H (b.transactions.map (·.id))

/-- Model of Block.calculateHash: hash of the serialised header fields. -/
def calculateHash (H : JSStr → JSStr) (b : Block) : JSStr :=
  H (encHeader b.header)

/-- Model of Block.updateHash: recompute the Merkle root, then the hash. -/
def updateHash (H : JSStr → JSStr) (b : Block) : Block :=
  let b' := { b with header := { b.header with merkleRoot := b.calculateMerkleRoot H } }
  { b' with hash := b'.calculateHash H }

/-- Serialised text of Block.toJSON, for size measurement. -/
def encJson (b : Block) : JSStr :=
  js "blkJ(" ++ encHeader b.header ++ js "," ++
    encList (b.transactions.map Transaction.encJson) ++ js "," ++
    encStr b.hash ++ js "," ++ natStr b.size ++ js ")"

/-- Model of Block.updateSize: store the serialised byte length. -/
def updateSize (b : Block) : Block := { b with size := (encJson b).length }

/-- Model of the Block constructor: record the transactions, build the
header from the previous hash, height and difficulty with version 1, nonce
0 and creation time now, then update hash and size. -/
def create (H : JSStr → JSStr) (transactions : List Transaction)
    (previousHash : JSStr) (height : Nat) (difficulty : Nat) (now : Nat) :
    Block :=
  let hdr : BlockHeader :=
    { version := 1
      previousHash := previousHash
      merkleRoot := []
      timestamp := now
      difficulty := difficulty
      nonce := 0
      height := height }
  let b : Block := { header := hdr, transactions := transactions, hash := [], size := 0 }
  (b.updateHash H).updateSize

/-- The proof-of-work search loop of Block.mineBlock: starting from the
given nonce, update the hash and test it against the target, incrementing
the nonce on failure.  The source loop runs unboundedly until success;
fuel bounds the number of further attempts modelled, and none means the
search was still running after them. -/
def mineLoop (H : JSStr → JSStr) (b : Block) (target : JSStr) :
    Nat → Nat → Option Block
  | nonce, fuel =>
    let cand := updateHash H { b with header := { b.header with nonce := nonce } }
    if HashUtil.jsStartsWith cand.hash target then some cand.updateSize
    else
      match fuel with
      | 0 => none
      | f + 1 => mineLoop H b target (nonce + 1) f

/-- Model of Block.mineBlock: the target difficulty is the argument unless
it is absent or zero (JavaScript falsiness of 0 under the || fallback), in
which case the stored header difficulty is used; then the nonce search
runs from zero. -/
def mineBlock (H : JSStr → JSStr) (b : Block) (difficulty : Option Nat)
    (fuel : Nat) : Option Block :=
  let targetDifficulty :=
    match difficulty with
    | some d => if d = 0 then b.header.difficulty else d
    | none => b.header.difficulty
  mineLoop H b (List.replicate targetDifficulty '0') 0 fuel

/-- No duplicate elements, as the source's Set-cardinality comparison
checks on the list of transaction ids. -/
def noDup : List JSStr → Bool
  | [] => true
  | x :: r => !(r.contains x) && noDup r

/-- The coinbase placement checks of Block.isValid: at most one coinbase
transaction, and if there is exactly one it is the first transaction (the
source compares object identity of transactions[0] with the filtered
coinbase, which for a block with one coinbase holds exactly when the first
transaction is that coinbase). -/
def coinbaseOk (b : Block) : Bool :=
  let cbs := b.transactions.filter (·.isCoinbase)
  decide (cbs.length ≤ 1) &&
    (if cbs.length = 1 then
      (match b.transactions with
       | t :: _ => t.isCoinbase
       | [] => true)
     else true)

/-- The per-transaction checks of Block.isValid: individual validity of
every transaction, distinct ids, and coinbase placement. -/
def txChecks (H : JSStr → JSStr) (b : Block) : Bool :=
  b.transactions.all (Transaction.isValid H) &&
    noDup (b.transactions.map (·.id)) && coinbaseOk b

/-- Model of Block.isValid: stored hash matches the recomputed hash, the
hash meets the stored difficulty, linkage and height agree with the given
parent, the stored Merkle root matches the recomputed one, and the
transaction-level checks pass.  The source's sequence of early returns is
the short-circuit conjunction written here. -/
def isValid (H : JSStr → JSStr) (b : Block) (previousBlock : Option Block) :
    Bool :=
  decide (b.hash = b.calculateHash H) &&
    HashUtil.meetsDifficulty b.hash b.header.difficulty &&
    (match previousBlock with
     | some p => decide (b.header.previousHash = p.hash)
     | none => true) &&
    (match previousBlock with
     | some p => decide (b.header.height = p.header.height + 1)
     | none => true) &&
    decide (b.header.merkleRoot = b.calculateMerkleRoot H) &&
    txChecks H b

/-- Model of Block.getBlockReward: initial reward of 50 halved once per
completed halving interval of 210000 blocks. -/
def getBlockReward (height : Nat) : Rat :=
  50 / 2 ^ (height / 210000)

/-- The hard-coded genesis miner address. -/
def genesisAddress : JSStr := js "1A1zP1eP5QGefi2DMPTfTL5SLmv7DivfNa"

/-- Model of Block.createGenesisBlock: a height-0 block at difficulty 4
holding one 50-coin coinbase to the genesis address, its header timestamp
overwritten with the Bitcoin genesis timestamp before mining.  The
coinbase transaction itself keeps the wall-clock creation time now. -/
def createGenesisBlock (H : JSStr → JSStr) (now : Nat) (fuel : Nat) :
    Option Block :=
  let genesisTransaction := Transaction.createCoinbase H genesisAddress 50 0 now
  let b := create H [genesisTransaction] zeros64 0 4 now
  let b := { b with header := { b.header with timestamp := 1231006505 } }
  b.mineBlock H none fuel

/-- Model of Block.getTotalFees: sum of stored fees of the non-coinbase
transactions. -/
def getTotalFees (b : Block) : Rat :=
  ((b.transactions.filter (fun t => !t.isCoinbase)).map (·.fee)).sum

/-- The serialised form of a block, mirroring Block.toJSON: full header,
serialised transactions, hash and size. -/
structure Json where
  header : BlockHeader
  transactions : List Transaction.Json
  hash : JSStr
  size : Nat
  deriving DecidableEq, Repr

/-- Model of Block.toJSON. -/
def toJSONData (b : Block) : Json :=
  { header := b.header
    transactions := b.transactions.map Transaction.toJSONData
    hash := b.hash
    size := b.size }

/-- Model of Block.fromJSON: rebuild the transactions, run the constructor
on them with the parsed previous hash, height and difficulty (and the
deserialisation wall-clock time now), then overwrite the whole header, the
hash and the size from the parsed record. -/
def fromJSONData (H : JSStr → JSStr) (now : Nat) (d : Json) : Block :=
  let transactions := d.transactions.map (Transaction.fromJSONData H now)
  let b := create H transactions d.header.previousHash d.header.height
    d.header.difficulty now
  { b with header := d.header, hash := d.hash, size := d.size }

end Block

/-! ## Ledger data model (src/core/Blockchain.ts)

The JavaScript Map objects holding the UTXO index and the address balances
are modelled as association lists in insertion order: set replaces the
entry in place when the key is present and appends otherwise, delete
removes the entry, and iteration follows the list order, matching Map
iteration semantics. -/

/-- Membership test of a key, modelling Map.has. -/
def mapHas {α : Type} (m : List (JSStr × α)) (k : JSStr) : Bool :=
  m.any fun p => decide (p.1 = k)

/-- Lookup of a key, modelling Map.get (none models undefined). -/
def mapGet? {α : Type} (m : List (JSStr × α)) (k : JSStr) : Option α :=
  (m.find? fun p => decide (p.1 = k)).map (·.2)

/-- Lookup with a default, modelling the source's get(k) || d pattern. -/
def mapGetD {α : Type} (m : List (JSStr × α)) (k : JSStr) (d : α) : α :=
  (mapGet? m k).getD d

/-- Update of a key, modelling Map.set: in-place replacement when present,
append in insertion order when absent. -/
def mapSet {α : Type} (m : List (JSStr × α)) (k : JSStr) (v : α) :
    List (JSStr × α) :=
  if mapHas m k then m.map fun p => if p.1 = k then (k, v) else p
  else m ++ [(k, v)]

/-- Removal of a key, modelling Map.delete. -/
def mapDel {α : Type} (m : List (JSStr × α)) (k : JSStr) :
    List (JSStr × α) :=
  m.filter fun p => !(decide (p.1 = k))

/-- An unspent transaction output record, as indexed by the ledger. -/
structure UTXO where
  txId : JSStr
  outputIndex : Int
  address : JSStr
  amount : Rat
  blockHeight : Nat
  deriving DecidableEq, Repr

/-- The UTXO index key txId:outputIndex built by the source's template
string. -/
def utxoKey (txId : JSStr) (outputIndex : Int) : JSStr :=
  txId ++ ':' :: intStr outputIndex

/-- The pair of mutable maps updated by Blockchain.updateUTXOSet, together
with a ghost freshness flag.  The flag is verification instrumentation,
not part of the source state: it stays true exactly while no created
output key was already present in the index at its creation (the one
situation in which Map.set overwrites an entry while the balance is
incremented again). -/
structure UtxoState where
  utxo : List (JSStr × UTXO)
  bal : List (JSStr × Rat)
  fresh : Bool
  deriving DecidableEq, Repr

/-- The input half of Blockchain.updateUTXOSet for one input: unless the
input is a coinbase-style reference (empty id or negative index), look the
key up and, when present, delete it and decrement the owning address's
balance. -/
def applyInput (st : UtxoState) (inp : TransactionInput) : UtxoState :=
  if inp.txId ≠ [] ∧ 0 ≤ inp.outputIndex then
    let k := utxoKey inp.txId inp.outputIndex
    match mapGet? st.utxo k with
    | some u =>
      { st with
        utxo := mapDel st.utxo k
        bal := mapSet st.bal u.address (mapGetD st.bal u.address 0 - u.amount) }
    | none => st
  else st

/-- The output half of Blockchain.updateUTXOSet for one transaction: each
output is indexed under txId:index and the receiving address's balance is
incremented.  The ghost flag records whether every created key was absent
from the index. -/
def applyOutputs (txId : JSStr) (height : Nat) :
    Nat → List TransactionOutput → UtxoState → UtxoState
  | _, [], st => st
  | idx, o :: os, st =>
    let k := utxoKey txId (idx : Int)
    let u : UTXO :=
      { txId := txId
        outputIndex := (idx : Int)
        address := o.address
        amount := o.amount
        blockHeight := height }
    let st' : UtxoState :=
      { utxo := mapSet st.utxo k u
        bal := mapSet st.bal o.address (mapGetD st.bal o.address 0 + o.amount)
        fresh := st.fresh && !(mapHas st.utxo k) }
    applyOutputs txId height (idx + 1) os st'

/-- Blockchain.updateUTXOSet on one transaction: spend all inputs, then
create all outputs. -/
def applyTx (height : Nat) (st : UtxoState) (t : Transaction) : UtxoState :=
  let st1 := t.inputs.foldl applyInput st
  applyOutputs t.id height 0 t.outputs st1

/-- Blockchain.updateUTXOSet on a whole block. -/
def applyBlockUTXO (b : Block) (st : UtxoState) : UtxoState :=
  b.transactions.foldl (applyTx b.header.height) st

/-- The replay of updateUTXOSet over a block sequence from cleared maps,
as performed by importChain and the startup rebuild. -/
def replayUTXO (blocks : List Block) : UtxoState :=
  blocks.foldl (fun st b => applyBlockUTXO b st) ⟨[], [], true⟩

/-- The in-memory ledger state. -/
structure Blockchain where
  chain : List Block
  difficulty : Nat
  miningReward : Rat
  memPool : List Transaction
  utxoSet : List (JSStr × UTXO)
  addressBalances : List (JSStr × Rat)
  blockTimes : List Int
  deriving DecidableEq, Repr

/-- The target inter-block time of ten minutes in milliseconds. -/
def targetBlockTime : Int := 600000

/-- The retargeting interval of ten blocks. -/
def difficultyAdjustmentInterval : Nat := 10

namespace Blockchain

/-- A placeholder block standing for the undefined value JavaScript
indexing yields outside the array; reachable ledger states never have an
empty chain. -/
def dummyBlock : Block :=
  { header :=
      { version := 0, previousHash := [], merkleRoot := [], timestamp := 0,
        difficulty := 0, nonce := 0, height := 0 }
    transactions := [], hash := [], size := 0 }

/-- Model of Blockchain.getLatestBlock: the last block of the chain. -/
def getLatestBlock (s : Blockchain) : Block := s.chain.getLastD dummyBlock

/-- Fresh-ledger initialisation with the given mined genesis block,
modelling the constructor path taken when storage holds no blocks: the
genesis block alone in the chain, difficulty 4, mining reward 50, an empty
pool, the UTXO index and balances produced by replaying the genesis block
through updateUTXOSet, and the target block time as the seed entry of the
block-time history.  The saveBlock call's result is ignored by the source
here. -/
def initFresh (g : Block) : Blockchain :=
  let st := applyBlockUTXO g ⟨[], [], true⟩
  { chain := [g]
    difficulty := 4
    miningReward := 50
    memPool := []
    utxoSet := st.utxo
    addressBalances := st.bal
    blockTimes := [targetBlockTime] }

/-- Model of Blockchain.isTransactionInBlockchain. -/
def isTransactionInBlockchain (s : Blockchain) (txId : JSStr) : Bool :=
  s.chain.any fun b => b.transactions.any fun t => decide (t.id = txId)

/-- Model of Blockchain.updateBlockTimes, called with the chain already
extended by the new block: when an earlier block exists, push the
timestamp delta to it and keep only the most recent
difficultyAdjustmentInterval entries. -/
def updateBlockTimes (s : Blockchain) (previous : Block) (b : Block)
    (chainLen : Nat) : List Int :=
  if 1 < chainLen then
    let bt := s.blockTimes ++
      [(b.header.timestamp : Int) - (previous.header.timestamp : Int)]
    if difficultyAdjustmentInterval < bt.length then bt.tail else bt
  else s.blockTimes

/-- Model of Blockchain.addBlock.  A block failing validation against the
tip, or failing the (redundant) explicit height check, is rejected with no
state change.  Otherwise the block is appended; if the storage
collaborator S refuses to persist it, the append is popped again and the
call fails; on success the UTXO index, balances, pool and block-time
history are updated.  The fee writes performed on the block's transactions
by the isValid calls during validation are applied to the stored block by
feeEffect. -/
def addBlock (H : JSStr → JSStr) (S : Block → Bool) (s : Blockchain)
    (b : Block) : Blockchain × Bool :=
  let previousBlock := s.getLatestBlock
  if ¬ (b.isValid H (some previousBlock)) then (s, false)
  else if b.header.height ≠ previousBlock.header.height + 1 then (s, false)
  else
    let bm := { b with transactions := b.transactions.map (Transaction.feeEffect H) }
    let chain1 := s.chain ++ [bm]
    if ¬ S b then ({ s with chain := chain1.dropLast }, false)
    else
      let st := applyBlockUTXO bm ⟨s.utxoSet, s.addressBalances, true⟩
      let pool := s.memPool.filter fun tx =>
        !(bm.transactions.any fun t => decide (t.id = tx.id))
      ({ s with
          chain := chain1
          utxoSet := st.utxo
          addressBalances := st.bal
          memPool := pool
          blockTimes := updateBlockTimes s previousBlock bm chain1.length },
        true)

/-- Model of Blockchain.addTransaction: reject an invalid transaction, a
transaction already pooled or already in the chain, and a transaction one
of whose non-coinbase-style inputs references a key absent from the UTXO
index; otherwise append it to the pool.  The accepted transaction carries
the fee write performed by the isValid call. -/
def addTransaction (H : JSStr → JSStr) (s : Blockchain) (t : Transaction) :
    Blockchain × Bool :=
  if ¬ (t.isValid H) then (s, false)
  else
    let tm := t.feeEffect H
    if s.memPool.any (fun tx => decide (tx.id = tm.id)) then (s, false)
    else if s.isTransactionInBlockchain tm.id then (s, false)
    else if ¬ (tm.inputs.all fun inp =>
        (decide (inp.txId = []) || decide (inp.outputIndex < 0)) ||
          mapHas s.utxoSet (utxoKey inp.txId inp.outputIndex)) then
      (s, false)
    else ({ s with memPool := s.memPool ++ [tm] }, true)

/-- Model of Blockchain.getUTXOsForAddress: the indexed outputs owned by
the address, in insertion order. -/
def getUTXOsForAddress (s : Blockchain) (address : JSStr) : List UTXO :=
  (s.utxoSet.map (·.2)).filter fun u => decide (u.address = address)

/-- Model of Blockchain.getAddressBalance. -/
def getAddressBalance (s : Blockchain) (address : JSStr) : Rat :=
  mapGetD s.addressBalances address 0

/-- Model of Blockchain.adjustDifficulty: at every tenth chain length the
difficulty is retargeted from the mean recorded block time.  In reachable
states the block-time history is nonempty whenever this fires; the mean is
written with Lean's total division. -/
def adjustDifficultyState (s : Blockchain) : Blockchain :=
  if s.chain.length % difficultyAdjustmentInterval = 0 ∧ 0 < s.chain.length then
    let avg : Rat := ((s.blockTimes.sum : Int) : Rat) / (s.blockTimes.length : Rat)
    { s with difficulty := HashUtil.adjustDifficulty s.difficulty (targetBlockTime : Rat) avg }
  else s

/-- Stable insertion of a transaction below all earlier entries of
greater-or-equal fee rate. -/
def insertByRate (rate : Transaction → Rat) (x : Transaction) :
    List Transaction → List Transaction
  | [] => [x]
  | y :: ys => if rate x ≤ rate y then y :: insertByRate rate x ys
    else x :: y :: ys

/-- Stable descending sort by fee rate, modelling Array.prototype.sort
(stable per the language specification) under the comparator
feeRateB - feeRateA used by the source. -/
def sortByRateDesc (rate : Transaction → Rat) (l : List Transaction) :
    List Transaction :=
  l.foldl (fun acc x => insertByRate rate x acc) []

/-- The fee rate (stored fee per serialised byte) used to order the pool. -/
def feeRate (t : Transaction) : Rat := t.fee / (t.getSize : Rat)

/-- Model of Blockchain.selectTransactionsForMining on the pool after its
fee writes: revalidate, sort by fee rate descending (stable), and cap at
100 transactions. -/
def selectTransactionsForMining (H : JSStr → JSStr)
    (pool : List Transaction) : List Transaction :=
  (sortByRateDesc feeRate (pool.filter (Transaction.isValid H))).take 100

/-- The staged state mineBlock produces before assembling a block: the
difficulty retarget has run, and the isValid calls of the pool filter have
performed their fee writes on the pooled transactions in place. -/
def mineStage (H : JSStr → JSStr) (s : Blockchain) : Blockchain :=
  let s0 := adjustDifficultyState s
  { s0 with memPool := s0.memPool.map (Transaction.feeEffect H) }

/-- The candidate block Blockchain.mineBlock assembles and mines: selected
pool transactions behind a coinbase paying the block reward at the current
chain length plus the selected fees, on top of the current tip at the
current difficulty, mined with the current difficulty as target.  none
models a proof-of-work search still running after fuel attempts. -/
def mineCandidate (H : JSStr → JSStr) (s : Blockchain)
    (minerAddress : JSStr) (now : Nat) (fuel : Nat) : Option Block :=
  let s1 := mineStage H s
  let selected := selectTransactionsForMining H s1.memPool
  let blockReward := Block.getBlockReward s1.chain.length
  let totalFees := (selected.map (·.fee)).sum
  let coinbaseTransaction := Transaction.createCoinbase H minerAddress
    (blockReward + totalFees) s1.chain.length now
  let previousBlock := s1.getLatestBlock
  let newBlock := Block.create H (coinbaseTransaction :: selected)
    previousBlock.hash (previousBlock.header.height + 1) s1.difficulty now
  newBlock.mineBlock H (some s1.difficulty) fuel

/-- Model of Blockchain.mineBlock: retarget, select, assemble, mine, then
attempt admission through addBlock; the mined block is returned only when
admission succeeds.  The returned state reflects the retarget and the pool
fee writes even when mining or admission fails. -/
def mineBlock (H : JSStr → JSStr) (S : Block → Bool) (s : Blockchain)
    (minerAddress : JSStr) (now : Nat) (fuel : Nat) :
    Blockchain × Option Block :=
  let s1 := mineStage H s
  match mineCandidate H s minerAddress now fuel with
  | none => (s1, none)
  | some newBlock =>
    let r := addBlock H S s1 newBlock
    (r.1, if r.2 then some newBlock else none)

/-- Model of Blockchain.isChainValid's index loop: every adjacent pair of
blocks from height 1 on must validate against its parent. -/
def chainValid (H : JSStr → JSStr) : List Block → Bool
  | [] => true
  | [_] => true
  | a :: b :: r => b.isValid H (some a) && chainValid H (b :: r)

/-- Model of Blockchain.isChainValid. -/
def isChainValid (H : JSStr → JSStr) (s : Blockchain) : Bool :=
  chainValid H s.chain

/-- The self-describing import payload of Blockchain.importChain (the
parsed JSON document; a document failing to parse is rejected before this
model is reached). -/
structure ImportData where
  chain : List Block.Json
  difficulty : Nat
  miningReward : Rat
  deriving DecidableEq, Repr

/-- Model of Blockchain.importChain: rebuild the blocks, validate the
candidate chain, and on success adopt it together with the imported
difficulty and mining reward, replaying the UTXO index and balances from
cleared maps.  Block.fromJSON's result does not depend on the wall-clock
time the constructor stamps, so it is rebuilt at time 0.  The pool and
block-time history are left untouched by the source. -/
def importChain (H : JSStr → JSStr) (s : Blockchain) (d : ImportData) :
    Blockchain × Bool :=
  let newChain := d.chain.map (Block.fromJSONData H 0)
  if ¬ (chainValid H newChain) then (s, false)
  else
    let st := replayUTXO newChain
    ({ s with
        chain := newChain
        difficulty := d.difficulty
        miningReward := d.miningReward
        utxoSet := st.utxo
        addressBalances := st.bal },
      true)

/-- One mining request: miner address, wall-clock time and modelled fuel. -/
structure MineOp where
  addr : JSStr
  now : Nat
  fuel : Nat
  deriving DecidableEq, Repr

/-- A sequence of mineBlock calls applied to a ledger, each feeding the
state its predecessor returned. -/
def applyMineOps (H : JSStr → JSStr) (S : Block → Bool) :
    Blockchain → List MineOp → Blockchain
  | s, [] => s
  | s, op :: ops =>
    applyMineOps H S (Blockchain.mineBlock H S s op.addr op.now op.fuel).1 ops

end Blockchain

/-! ## Concrete runs used by witnesses and counterexamples

All concrete runs instantiate the abstract hash with testHash and the
storage collaborator with an always-succeeding save. -/

namespace Scenario

/-- An always-succeeding storage collaborator. -/
def saveOk : Block → Bool := fun _ => true

/-- The genesis block mined at wall-clock time 1000 (the first nonce
already meets the target under testHash). -/
def genesisO : Option Block := Block.createGenesisBlock testHash 1000 0

/-- The concrete genesis block. -/
def genesis : Block := genesisO.getD Blockchain.dummyBlock

/-- The genesis coinbase transaction. -/
def gtx : Transaction :=
  Transaction.createCoinbase testHash Block.genesisAddress 50 0 1000

/-- The freshly initialised ledger. -/
def s0 : Blockchain := Blockchain.initFresh genesis

/-- Spending key of the concrete runs. -/
def alicePriv : JSStr := js "alice-key"

/-- Public key derived from the spending key. -/
def alicePub : JSStr := Sig.getPublicKey alicePriv

/-- Recipient address of the concrete runs. -/
def bobAddr : JSStr := js "bob-address"

/-- The unsigned input referencing the genesis coinbase output. -/
def spendInput : TransactionInput :=
  { txId := gtx.id
    outputIndex := 0
    signature := []
    publicKey := alicePub
    amount := 50 }

/-- The unsigned transaction created at time ts spending the genesis
coinbase output (txId gtx.id, index 0, 50 coins) entirely to bobAddr with
fee 0. -/
def mkSpendRaw (ts : Nat) : Transaction :=
  Transaction.create testHash ts [spendInput]
    [{ address := bobAddr, amount := 50 }] none

/-- The spend after signing its single input with the matching key. -/
def mkSpend (ts : Nat) : Transaction :=
  match (mkSpendRaw ts).signTransaction testHash alicePriv 0 with
  | .ok t' => t'
  | .error _ => mkSpendRaw ts

/-- First double-spend of the genesis output. -/
def tx1 : Transaction := mkSpend 2000

/-- Second double-spend of the same genesis output. -/
def tx2 : Transaction := mkSpend 2001

/-- Ledger after pooling tx1. -/
def s1 : Blockchain := (Blockchain.addTransaction testHash s0 tx1).1

/-- Ledger after pooling tx1 and tx2. -/
def s2 : Blockchain := (Blockchain.addTransaction testHash s1 tx2).1

/-- The mining call on the double-spend pool. -/
def mineRes : Blockchain × Option Block :=
  Blockchain.mineBlock testHash saveOk s2 (js "miner-address") 3000 0

/-- Ledger after the mining call. -/
def s3 : Blockchain := mineRes.1

/-- The block mined from the double-spend pool. -/
def minedB : Block := mineRes.2.getD Blockchain.dummyBlock

/-- A third spend of the same genesis output, for post-block revalidation. -/
def tx3 : Transaction := mkSpend 2002

/-- A spend of the genesis output used by the crafted duplicate-inclusion
run. -/
def txS : Transaction := mkSpend 2010

/-- Coinbase of the first crafted block. -/
def cb1 : Transaction :=
  Transaction.createCoinbase testHash (js "miner-one") 50 1 4000

/-- First crafted block at difficulty 0: coinbase plus txS. -/
def b1 : Block := Block.create testHash [cb1, txS] genesis.hash 1 0 4000

/-- Coinbase of the second crafted block. -/
def cb2 : Transaction :=
  Transaction.createCoinbase testHash (js "miner-two") 50 2 5000

/-- Second crafted block at difficulty 0: coinbase plus txS again. -/
def b2 : Block := Block.create testHash [cb2, txS] b1.hash 2 0 5000

/-- Admission of the first crafted block. -/
def d1 : Blockchain × Bool := Blockchain.addBlock testHash saveOk s0 b1

/-- Admission of the second crafted block, re-including txS. -/
def d2 : Blockchain × Bool := Blockchain.addBlock testHash saveOk d1.1 b2

/-- The degenerate transaction with no inputs and no outputs. -/
def emptyTx : Transaction := Transaction.create testHash 6000 [] [] none

/-- A block at difficulty 0 whose only transaction is invalid. -/
def badBlock : Block := Block.create testHash [emptyTx] genesis.hash 1 0 6000

/-- The bad block after its mining loop succeeds. -/
def badMined : Option Block := badBlock.mineBlock testHash none 0

/-- Coinbase of the well-formed mining witness block. -/
def cbW : Transaction :=
  Transaction.createCoinbase testHash (js "witness-miner") 50 1 7000

/-- A well-formed block at difficulty 0 used by the mining witness. -/
def okBlock : Block := Block.create testHash [cbW] genesis.hash 1 0 7000

/-- The genesis block with one character of its stored hash changed. -/
def genesisTampered : Block :=
  { genesis with hash := '1' :: genesis.hash.tail }

/-- The signed input held by txS (the spend input carrying the signature
produced at time 2010). -/
def txSInput : TransactionInput :=
  let sigv := Sig.sign testHash
    (encSigPayload spendInput.txId spendInput.outputIndex spendInput.amount 2010)
    alicePriv
  { spendInput with signature := sigv }

/-- The signed input held by tx1 (the spend input carrying its
signature). -/
def tx1Input : TransactionInput :=
  let sigv := Sig.sign testHash
    (encSigPayload spendInput.txId spendInput.outputIndex spendInput.amount 2000)
    alicePriv
  { spendInput with signature := sigv }

end Scenario

/-! ## Verification predicates -/

/-- The total amount held by an address in a UTXO index: the sum of the
amounts of the indexed outputs owned by it. -/
def utxoSumFor (m : List (JSStr × UTXO)) (a : JSStr) : Rat :=
  (((m.map (·.2)).filter fun u => decide (u.address = a)).map (·.amount)).sum

/-- Ghost freshness of a block against a ledger's maps: processing the
block through updateUTXOSet never creates an output key already present
in the index at the moment of creation. -/
def Blockchain.blockFresh (s : Blockchain) (b : Block) : Bool :=
  (applyBlockUTXO b ⟨s.utxoSet, s.addressBalances, true⟩).fresh

/-- Well-formedness of the mutable maps: both maps have duplicate-free
keys and every address's stored balance is the total amount of its
indexed outputs. -/
def stWF (st : UtxoState) : Prop :=
  (st.utxo.map (·.1)).Nodup ∧ (st.bal.map (·.1)).Nodup ∧
  ∀ a : JSStr, mapGetD st.bal a 0 = utxoSumFor st.utxo a

/-- Ledger states reachable from fresh initialisation through
addTransaction calls, addBlock admissions and mineBlock calls whose
admitted block creates only output keys absent from the index, and
importChain adoptions whose replay from cleared maps likewise never
overwrites a key.  The freshness side conditions hold in particular for
every run in which no admitted block re-introduces a transaction whose
output keys are still live. -/
inductive ReachableFresh (H : JSStr → JSStr) : Blockchain → Prop
  | init (now fuel : Nat) (g : Block)
      (hg : Block.createGenesisBlock H now fuel = some g) :
      ReachableFresh H (Blockchain.initFresh g)
  | addTx (s : Blockchain) (t : Transaction) (hs : ReachableFresh H s) :
      ReachableFresh H (Blockchain.addTransaction H s t).1
  | addBlk (s : Blockchain) (b : Block) (S : Block → Bool)
      (hs : ReachableFresh H s) (hf : s.blockFresh b = true) :
      ReachableFresh H (Blockchain.addBlock H S s b).1
  | mine (s : Blockchain) (addr : JSStr) (now fuel : Nat) (S : Block → Bool)
      (hs : ReachableFresh H s)
      (hf : ∀ b, Blockchain.mineCandidate H s addr now fuel = some b →
        s.blockFresh b = true) :
      ReachableFresh H (Blockchain.mineBlock H S s addr now fuel).1
  | imp (s : Blockchain) (d : Blockchain.ImportData) (hs : ReachableFresh H s)
      (hf : (replayUTXO (d.chain.map (Block.fromJSONData H 0))).fresh = true) :
      ReachableFresh H (Blockchain.importChain H s d).1

/-! ## Theorems -/

/-- Updating only the fee leaves every validity-relevant observation of a
transaction unchanged (no check of isValid reads the stored fee). -/
theorem Transaction.isValid_set_fee (H : JSStr → JSStr) (t : Transaction)
    (f : Rat) : Transaction.isValid H { t with fee := f } = t.isValid H := rfl

/-- The fee write of an isValid call either leaves the transaction alone or
overwrites exactly the fee field with the computed fee. -/
theorem Transaction.feeEffect_cases (H : JSStr → JSStr) (t : Transaction) :
    t.feeEffect H = t ∨ t.feeEffect H = { t with fee := t.computeFee } := by
  unfold Transaction.feeEffect
  split
  · exact .inl rfl
  split
  · exact .inl rfl
  split
  · exact .inr rfl
  · exact .inl rfl

/-- The fee write preserves the transaction id. -/
theorem Transaction.feeEffect_id (H : JSStr → JSStr) (t : Transaction) :
    (t.feeEffect H).id = t.id := by
  rcases Transaction.feeEffect_cases H t with h | h <;> rw [h]

/-- The fee write preserves the inputs. -/
theorem Transaction.feeEffect_inputs (H : JSStr → JSStr) (t : Transaction) :
    (t.feeEffect H).inputs = t.inputs := by
  rcases Transaction.feeEffect_cases H t with h | h <;> rw [h]

/-- The fee write preserves the outputs. -/
theorem Transaction.feeEffect_outputs (H : JSStr → JSStr) (t : Transaction) :
    (t.feeEffect H).outputs = t.outputs := by
  rcases Transaction.feeEffect_cases H t with h | h <;> rw [h]

/-- The fee write preserves the coinbase test. -/
theorem Transaction.feeEffect_isCoinbase (H : JSStr → JSStr) (t : Transaction) :
    (t.feeEffect H).isCoinbase = t.isCoinbase := by
  rcases Transaction.feeEffect_cases H t with h | h <;> rw [h] <;> try rfl

/-- The fee write preserves the isValid verdict. -/
theorem Transaction.feeEffect_isValid (H : JSStr → JSStr) (t : Transaction) :
    (t.feeEffect H).isValid H = t.isValid H := by
  rcases Transaction.feeEffect_cases H t with h | h <;> rw [h] <;> try rfl

/-- Mapping the fee write over a block's transactions changes none of the
transaction ids. -/
theorem feeMap_ids (H : JSStr → JSStr) (l : List Transaction) :
    (l.map (Transaction.feeEffect H)).map (·.id) = l.map (·.id) := by
  induction l with
  | nil => rfl
  | cons t r ih => simp [ih, Transaction.feeEffect_id]

/-- The block obtained by applying the fee writes of validation to a
block's transactions validates exactly like the original block: no check
of Block.isValid reads a stored fee. -/
theorem Block.isValid_feeMap (H : JSStr → JSStr) (b : Block)
    (p : Option Block) :
    Block.isValid H
      { b with transactions := b.transactions.map (Transaction.feeEffect H) } p =
      Block.isValid H b p := by
  have hmr : Block.calculateMerkleRoot H
      { b with transactions := b.transactions.map (Transaction.feeEffect H) } =
      Block.calculateMerkleRoot H b := by
    unfold Block.calculateMerkleRoot
    rcases hb : b.transactions with _ | ⟨t, r⟩
    · simp
    · simp only [hb, List.map_cons, feeMap_ids H (t :: r)]
      have h1 : (Transaction.feeEffect H t :: r.map (Transaction.feeEffect H)) ≠ [] := by
        simp
      have h2 : (t :: r) ≠ [] := by simp
      rw [if_neg h1, if_neg h2]
      have := feeMap_ids H (t :: r)
      simp only [List.map_cons] at this
      rw [this]
  have hall : (b.transactions.map (Transaction.feeEffect H)).all
      (Transaction.isValid H) = b.transactions.all (Transaction.isValid H) := by
    induction b.transactions with
    | nil => rfl
    | cons t r ih => simp [ih, Transaction.feeEffect_isValid]
  have hcb : Block.coinbaseOk
      { b with transactions := b.transactions.map (Transaction.feeEffect H) } =
      Block.coinbaseOk b := by
    unfold Block.coinbaseOk
    have hf : (b.transactions.map (Transaction.feeEffect H)).filter
        (·.isCoinbase) = (b.transactions.filter (·.isCoinbase)).map
          (Transaction.feeEffect H) := by
      induction b.transactions with
      | nil => rfl
      | cons t r ih =>
        simp only [List.map_cons, List.filter_cons, Transaction.feeEffect_isCoinbase]
        rcases h : t.isCoinbase with _ | _ <;> simp [h, ih]
    simp only [hf, List.length_map]
    rcases hb : b.transactions with _ | ⟨t, r⟩
    · rfl
    · simp [Transaction.feeEffect_isCoinbase]
  have hch : Block.calculateHash H
      { b with transactions := b.transactions.map (Transaction.feeEffect H) } =
      Block.calculateHash H b := rfl
  unfold Block.isValid Block.txChecks
  simp only [hmr, hall, hcb, hch, feeMap_ids]

/-- Claim C4: calculateMerkleRoot hashes the empty string on the empty
list, hashes the single id on a one-element list, and on every list equals
the reference bottom-up self-duplicating Merkle definition. -/
theorem merkleRoot_matches_reference :
    (∀ H : JSStr → JSStr, HashUtil.calculateMerkleRoot H [] = H (js "")) ∧
    (∀ (H : JSStr → JSStr) (x : JSStr),
      HashUtil.calculateMerkleRoot H [x] = H x) ∧
    (∀ (H : JSStr → JSStr) (l : List JSStr),
      HashUtil.calculateMerkleRoot H l = merkleRootRef H l) := by
  refine ⟨fun H => rfl, fun H x => rfl, fun H l => ?_⟩
  match l with
  | [] => rfl
  | [x] => rfl
  | x :: y :: r =>
    unfold HashUtil.calculateMerkleRoot merkleRootRef
    have h1 : (x :: y :: r) ≠ [] := by simp
    have h2 : ¬ ((x :: y :: r).length = 1) := by simp
    rw [if_neg h1, if_neg h2, if_neg h1]

/-- Claim C9: deserialisation undoes serialisation, for transactions on
id, timestamp, inputs, outputs, fee (and every remaining field), and for
blocks on the full header, hash, size and contained transactions. -/
theorem serialization_round_trip :
    (∀ (H : JSStr → JSStr) (now : Nat) (t : Transaction),
      Transaction.fromJSONData H now t.toJSONData = t) ∧
    (∀ (H : JSStr → JSStr) (now : Nat) (b : Block),
      Block.fromJSONData H now b.toJSONData = b) := by
  constructor
  · intro H now t
    rfl
  · intro H now b
    have htx : ∀ l : List Transaction,
        (l.map Transaction.toJSONData).map (Transaction.fromJSONData H now) = l := by
      intro l
      induction l with
      | nil => rfl
      | cons t r ih =>
        simp only [List.map_cons, ih]
        rfl
    unfold Block.fromJSONData Block.toJSONData
    simp only [htx]
    rfl

/-- Claim C3 (amended): a coinbase transaction is valid exactly when all
its outputs are positive, with no signature check; a non-coinbase
transaction that is not the degenerate fully-empty transaction is valid
exactly when its signatures verify, its outputs are positive and its
computed fee is nonnegative.  (The degenerate transaction with no inputs
and no outputs is rejected outright by the leading guard.) -/
theorem transaction_isValid_characterization (H : JSStr → JSStr)
    (t : Transaction) :
    (t.isCoinbase = true → t.isValid H = t.outputsPositive) ∧
    (t.isCoinbase = false → ¬(t.inputs = [] ∧ t.outputs = []) →
      t.isValid H = (t.verifySignatures H && t.outputsPositive &&
        decide (0 ≤ t.computeFee))) := by
  constructor
  · intro hcb
    have hlen : t.inputs.length = 1 := by
      unfold Transaction.isCoinbase at hcb
      simp only [Bool.and_eq_true, decide_eq_true_eq] at hcb
      exact hcb.1
    simp [Transaction.isValid, hcb, hlen]
  · intro hcb hne
    have hg : ¬(t.inputs.length = 0 ∧ t.outputs.length = 0) := by
      simpa [List.length_eq_zero] using hne
    unfold Transaction.isValid
    rw [if_neg hg, if_neg (by simp [hcb])]

/-- Counterexample to claim C3 as stated: the degenerate transaction with
no inputs and no outputs is non-coinbase, vacuously passes signature
verification, vacuously has all outputs positive and has computed fee 0,
yet isValid rejects it. -/
theorem transaction_isValid_empty_cex :
    Transaction.isValid testHash Scenario.emptyTx = false ∧
    Scenario.emptyTx.isCoinbase = false ∧
    Scenario.emptyTx.verifySignatures testHash = true ∧
    Scenario.emptyTx.outputsPositive = true ∧
    (0 ≤ Scenario.emptyTx.computeFee) := by decide

/-- Witness for the amended claim C3 at concrete transactions: a concrete
coinbase and a concrete signed spend are both accepted. -/
theorem transaction_isValid_characterization_witness :
    Transaction.isValid testHash Scenario.cbW = true ∧
    Transaction.isValid testHash Scenario.tx1 = true := by
  constructor
  · rw [(transaction_isValid_characterization testHash Scenario.cbW).1 (by decide)]
    decide
  · rw [(transaction_isValid_characterization testHash Scenario.tx1).2
      (by decide) (by decide)]
    decide

/-- Claim C7 (amended): signing fails with the explicit out-of-bounds
error exactly for indices at or beyond the input count; it fails with the
key-mismatch error for an in-range index whose recorded public key does
not match the derived one; but for a negative index it fails with the
TypeError of reading a property of undefined, not with the out-of-bounds
error.  In every failure case the transaction is unchanged (the model
returns no updated transaction). -/
theorem sign_error_characterization (H : JSStr → JSStr) (t : Transaction)
    (priv : JSStr) (i : Int) :
    ((t.inputs.length : Int) ≤ i →
      t.signTransaction H priv i = .error .indexOutOfBounds) ∧
    (i < 0 → t.signTransaction H priv i = .error .undefinedAccess) ∧
    (∀ inp : TransactionInput, 0 ≤ i → t.inputs.get? i.toNat = some inp →
      inp.publicKey ≠ Sig.getPublicKey priv →
      t.signTransaction H priv i = .error .keyMismatch) := by
  refine ⟨fun h => ?_, fun h => ?_, fun inp h0 hget hmis => ?_⟩
  · unfold Transaction.signTransaction
    rw [if_pos h]
  · have hn : ¬((t.inputs.length : Int) ≤ i) := by
      have := Int.ofNat_nonneg t.inputs.length
      omega
    have h0 : ¬(0 ≤ i) := by omega
    unfold Transaction.signTransaction
    rw [if_neg hn, if_neg h0]
  · have hlt : i.toNat < t.inputs.length := by
      rcases List.get?_eq_some.mp hget with ⟨hl, _⟩
      exact hl
    have hn : ¬((t.inputs.length : Int) ≤ i) := by omega
    unfold Transaction.signTransaction
    rw [if_neg hn, if_pos h0, hget]
    simp [hmis]

/-- Counterexample to claim C7 as stated: at the concrete negative index
-1 on a transaction with one input, signing fails with the
undefined-property TypeError, which is not the index-out-of-range
error the claim promises. -/
theorem sign_negative_index_cex :
    Transaction.signTransaction testHash Scenario.tx1 Scenario.alicePriv (-1) =
      .error .undefinedAccess ∧
    (Except.error Transaction.SignError.undefinedAccess :
      Except Transaction.SignError Transaction) ≠
      .error .indexOutOfBounds := by
  exact ⟨rfl, by simp⟩

/-- Witness for the amended claim C7 at concrete inputs: index 5 on a
one-input transaction yields the out-of-bounds error, and a wrong key at
index 0 yields the key-mismatch error. -/
theorem sign_error_characterization_witness :
    Transaction.signTransaction testHash Scenario.tx1 Scenario.alicePriv 5 =
      .error .indexOutOfBounds ∧
    Transaction.signTransaction testHash Scenario.tx1 (js "mallory-key") 0 =
      .error .keyMismatch := by
  constructor
  · exact (sign_error_characterization testHash Scenario.tx1
      Scenario.alicePriv 5).1 (by decide)
  · exact (sign_error_characterization testHash Scenario.tx1
      (js "mallory-key") 0).2.2 Scenario.tx1Input (by decide) (by decide)
      (by decide)

/-- Replacing an input's signature leaves the id payload's input encoding
unchanged, entrywise over the list. -/
theorem map_encInputHash_set (s : JSStr) :
    ∀ (l : List TransactionInput) (i : Nat) (inp : TransactionInput),
      l.get? i = some inp →
      (l.set i { inp with signature := s }).map encInputHash =
        l.map encInputHash := by
  intro l
  induction l with
  | nil => intro i inp h; cases h
  | cons a r ih =>
    intro i inp h
    match i with
    | 0 =>
      simp only [List.get?] at h
      cases h
      rfl
    | j + 1 =>
      simp only [List.get?] at h
      simp only [List.set, List.map_cons, ih j inp h]

/-- Claim C8: signing a valid input with the matching key succeeds and
mutates only that input's signature: the result's inputs are the original
inputs with exactly input i's signature replaced, every other field is
unchanged, and both the stored id and the recomputed content hash are
unchanged, since signatures are excluded from the id payload. -/
theorem sign_frame (H : JSStr → JSStr) (t : Transaction) (priv : JSStr)
    (i : Nat) (inp : TransactionInput) (sigv : JSStr)
    (hget : t.inputs.get? i = some inp)
    (hkey : inp.publicKey = Sig.getPublicKey priv)
    (hsig : sigv = Sig.sign H
      (encSigPayload inp.txId inp.outputIndex inp.amount t.timestamp) priv) :
    ∃ t', t.signTransaction H priv (i : Int) = .ok t' ∧
      t'.timestamp = t.timestamp ∧ t'.outputs = t.outputs ∧
      t'.fee = t.fee ∧ t'.version = t.version ∧
      t'.lockTime = t.lockTime ∧ t'.data = t.data ∧ t'.id = t.id ∧
      t'.inputs = t.inputs.set i { inp with signature := sigv } ∧
      t'.calculateHash H = t.calculateHash H := by
  have hlt : i < t.inputs.length := by
    rcases List.get?_eq_some.mp hget with ⟨hl, _⟩
    exact hl
  have hn : ¬((t.inputs.length : Int) ≤ (i : Int)) := by
    omega
  have h0 : (0 : Int) ≤ (i : Int) := Int.ofNat_nonneg i
  have htn : (i : Int).toNat = i := Int.toNat_ofNat i
  refine ⟨{ t with inputs := t.inputs.set i { inp with signature := sigv } },
    ?_, rfl, rfl, rfl, rfl, rfl, rfl, rfl, rfl, ?_⟩
  · unfold Transaction.signTransaction
    rw [if_neg hn, if_pos h0, htn, hget, hsig]
    simp [hkey]
  · unfold Transaction.calculateHash encTxHashPayload
    simp only [hsig, map_encInputHash_set _ t.inputs i inp hget]

/-- Witness for claim C8 at a concrete input: signing the unsigned spend's
only input succeeds and leaves the computed content hash unchanged. -/
theorem sign_frame_witness :
    ∃ t', (Scenario.mkSpendRaw 2000).signTransaction testHash
        Scenario.alicePriv ((0 : Nat) : Int) = .ok t' ∧
      t'.calculateHash testHash =
        (Scenario.mkSpendRaw 2000).calculateHash testHash := by
  obtain ⟨t', h1, _, _, _, _, _, _, _, _, h10⟩ :=
    sign_frame testHash (Scenario.mkSpendRaw 2000) Scenario.alicePriv 0
      Scenario.spendInput (Scenario.tx1Input.signature) (by decide) (by decide)
      (by decide)
  exact ⟨t', h1, h10⟩

/-- Helper: the three rejection behaviours of addBlock, each returning
the original ledger state with false. -/
theorem addBlock_rejects (H : JSStr → JSStr) (S : Block → Bool)
    (s : Blockchain) (b : Block) :
    (Block.isValid H b (some s.getLatestBlock) = false →
      Blockchain.addBlock H S s b = (s, false)) ∧
    (b.header.height ≠ s.getLatestBlock.header.height + 1 →
      Blockchain.addBlock H S s b = (s, false)) ∧
    (S b = false → Blockchain.addBlock H S s b = (s, false)) := by
  refine ⟨fun h => ?_, fun h => ?_, fun h => ?_⟩
  · unfold Blockchain.addBlock
    rw [if_pos (by simp [h])]
  · unfold Blockchain.addBlock
    by_cases hv : Block.isValid H b (some s.getLatestBlock) = true
    · rw [if_neg (by simp [hv]), if_pos h]
    · rw [if_pos (by simpa using hv)]
  · unfold Blockchain.addBlock
    by_cases hv : Block.isValid H b (some s.getLatestBlock) = true
    · by_cases hh : b.header.height = s.getLatestBlock.header.height + 1
      · rw [if_neg (by simp [hv]), if_neg (by simp [hh]),
          if_pos (by simp [h]), List.dropLast_concat]
      · rw [if_neg (by simp [hv]), if_pos hh]
    · rw [if_pos (by simpa using hv)]

/-- Claim C2: addBlock leaves the whole ledger state unchanged and
returns false when the block fails validation against the tip, when its
height is not the tip's height plus one, or when the storage collaborator
refuses to persist it (in which case the in-memory append is popped
again, so the returned state is exactly the original one). -/
theorem addBlock_rejection (H : JSStr → JSStr) (S : Block → Bool)
    (s : Blockchain) (b : Block) :
    (Block.isValid H b (some s.getLatestBlock) = false →
      Blockchain.addBlock H S s b = (s, false)) ∧
    (b.header.height ≠ s.getLatestBlock.header.height + 1 →
      Blockchain.addBlock H S s b = (s, false)) ∧
    (S b = false → Blockchain.addBlock H S s b = (s, false)) :=
  addBlock_rejects H S s b

/-- Witness for claim C2 at concrete inputs: an invalid block against the
fresh ledger is rejected with no state change, and a valid crafted block
is rejected with no state change when the storage collaborator fails. -/
theorem addBlock_rejection_witness :
    Blockchain.addBlock testHash Scenario.saveOk Scenario.s0
      Blockchain.dummyBlock = (Scenario.s0, false) ∧
    Blockchain.addBlock testHash (fun _ => false) Scenario.s0 Scenario.b1 =
      (Scenario.s0, false) := by
  constructor
  · exact (addBlock_rejection testHash Scenario.saveOk Scenario.s0
      Blockchain.dummyBlock).1 (by decide)
  · exact (addBlock_rejection testHash (fun _ => false) Scenario.s0
      Scenario.b1).2.2 rfl

/-- updateSize changes only the size field. -/
theorem Block.updateSize_hash (b : Block) : b.updateSize.hash = b.hash := rfl

/-- updateSize changes only the size field. -/
theorem Block.updateSize_header (b : Block) :
    b.updateSize.header = b.header := rfl

/-- After updateHash the stored hash is the recomputed header hash. -/
theorem Block.updateHash_hash_eq (H : JSStr → JSStr) (b : Block) :
    (b.updateHash H).hash = (b.updateHash H).calculateHash H := rfl

/-- After updateHash the stored Merkle root is the recomputed one. -/
theorem Block.updateHash_merkle_eq (H : JSStr → JSStr) (b : Block) :
    (b.updateHash H).header.merkleRoot =
      (b.updateHash H).calculateMerkleRoot H := rfl

/-- A successful difficulty-target test of the mining loop is exactly the
meetsDifficulty test of validation. -/
theorem meets_of_startsWith (s : JSStr) (d : Nat)
    (h : HashUtil.jsStartsWith s (List.replicate d '0') = true) :
    HashUtil.meetsDifficulty s d = true := by
  unfold HashUtil.jsStartsWith at h
  unfold HashUtil.meetsDifficulty
  simpa using h

/-- Shape of a successful mining search: the result is the block with some
nonce installed, rehashed and resized, and its fresh hash passes the
difficulty-target test of the loop. -/
theorem mineLoop_spec (H : JSStr → JSStr) (b : Block) (target : JSStr) :
    ∀ (fuel nonce : Nat) (b' : Block),
      Block.mineLoop H b target nonce fuel = some b' →
      ∃ n, b' = (Block.updateHash H { b with header := { b.header with nonce := n } }).updateSize ∧
        HashUtil.jsStartsWith ((Block.updateHash H { b with header := { b.header with nonce := n } }).hash) target = true := by
  intro fuel
  induction fuel with
  | zero =>
    intro nonce b' h
    simp only [Block.mineLoop] at h
    by_cases hc : HashUtil.jsStartsWith ((Block.updateHash H { b with header := { b.header with nonce := nonce } }).hash) target = true
    · rw [if_pos hc] at h
      exact ⟨nonce, (Option.some.inj h).symm, hc⟩
    · rw [if_neg hc] at h
      cases h
  | succ f ih =>
    intro nonce b' h
    simp only [Block.mineLoop] at h
    by_cases hc : HashUtil.jsStartsWith ((Block.updateHash H { b with header := { b.header with nonce := nonce } }).hash) target = true
    · rw [if_pos hc] at h
      exact ⟨nonce, (Option.some.inj h).symm, hc⟩
    · rw [if_neg hc] at h
      exact ih (nonce + 1) b' h

/-- Claim C5 (amended): a block built atop parent p (correct previous hash
and height) whose transaction-level content already passes the
transaction checks of validation (each transaction valid, ids distinct,
coinbase placement correct) validates against p as soon as its no-argument
mining call, which targets the block's own stored difficulty, succeeds.
(Mining alone cannot repair transaction-level defects: see the
counterexample for a mined block that remains invalid.) -/
theorem mined_block_valid (H : JSStr → JSStr) (p b : Block) (fuel : Nat)
    (b' : Block)
    (hprev : b.header.previousHash = p.hash)
    (hheight : b.header.height = p.header.height + 1)
    (htx : Block.txChecks H b = true)
    (hm : b.mineBlock H none fuel = some b') :
    b'.isValid H (some p) = true := by
  unfold Block.mineBlock at hm
  obtain ⟨n, hb', hstart⟩ := mineLoop_spec H b _ fuel 0 b' hm
  subst hb'
  unfold Block.isValid
  simp only [Bool.and_eq_true]
  refine ⟨⟨⟨⟨⟨?_, ?_⟩, ?_⟩, ?_⟩, ?_⟩, ?_⟩
  · simp only [Block.updateSize_hash, Block.updateHash_hash_eq]
    have : Block.calculateHash H ((Block.updateHash H { b with header := { b.header with nonce := n } }).updateSize) =
        Block.calculateHash H (Block.updateHash H { b with header := { b.header with nonce := n } }) := rfl
    rw [this]
    simp
  · have hd : ((Block.updateHash H { b with header := { b.header with nonce := n } }).updateSize).header.difficulty =
        b.header.difficulty := rfl
    have hh : ((Block.updateHash H { b with header := { b.header with nonce := n } }).updateSize).hash =
        (Block.updateHash H { b with header := { b.header with nonce := n } }).hash := rfl
    rw [hd, hh]
    exact meets_of_startsWith _ _ hstart
  · have : ((Block.updateHash H { b with header := { b.header with nonce := n } }).updateSize).header.previousHash =
        b.header.previousHash := rfl
    rw [this, hprev]
    simp
  · have : ((Block.updateHash H { b with header := { b.header with nonce := n } }).updateSize).header.height =
        b.header.height := rfl
    rw [this, hheight]
    simp
  · simp only [Block.updateSize_header, Block.updateHash_merkle_eq]
    have : Block.calculateMerkleRoot H ((Block.updateHash H { b with header := { b.header with nonce := n } }).updateSize) =
        Block.calculateMerkleRoot H (Block.updateHash H { b with header := { b.header with nonce := n } }) := rfl
    rw [this]
    simp
  · have : Block.txChecks H ((Block.updateHash H { b with header := { b.header with nonce := n } }).updateSize) =
        Block.txChecks H b := rfl
    rw [this]
    exact htx

/-- Counterexample to claim C5 as stated: a concrete block holding one
invalid (degenerate) transaction, built atop the genesis block, mines
successfully against its stored difficulty yet fails validation against
its parent. -/
theorem mined_block_valid_cex :
    Scenario.badMined.isSome = true ∧
    Scenario.badBlock.header.previousHash = Scenario.genesis.hash ∧
    Scenario.badBlock.header.height = Scenario.genesis.header.height + 1 ∧
    (Scenario.badMined.getD Blockchain.dummyBlock).isValid testHash
      (some Scenario.genesis) = false := by decide

/-- Witness for the amended claim C5 at a concrete block: a well-formed
coinbase-only block atop the genesis block validates after mining. -/
theorem mined_block_valid_witness :
    ∃ b', Scenario.okBlock.mineBlock testHash none 0 = some b' ∧
      b'.isValid testHash (some Scenario.genesis) = true := by
  cases hm : Scenario.okBlock.mineBlock testHash none 0 with
  | none => exact absurd hm (by decide)
  | some b' =>
    exact ⟨b', rfl, mined_block_valid testHash Scenario.genesis
      Scenario.okBlock 0 b' (by decide) (by decide) (by decide) hm⟩

/-- Unpacking of a successful validation against a parent into its six
checks. -/
theorem Block.isValid_some_elim (H : JSStr → JSStr) (b p : Block)
    (h : Block.isValid H b (some p) = true) :
    b.hash = b.calculateHash H ∧
    HashUtil.meetsDifficulty b.hash b.header.difficulty = true ∧
    b.header.previousHash = p.hash ∧
    b.header.height = p.header.height + 1 ∧
    b.header.merkleRoot = b.calculateMerkleRoot H ∧
    Block.txChecks H b = true := by
  unfold Block.isValid at h
  simp only [Bool.and_eq_true, decide_eq_true_eq] at h
  tauto

/-- A wrong parent linkage falsifies validation. -/
theorem Block.isValid_false_of_prevHash (H : JSStr → JSStr) (b p : Block)
    (h : b.header.previousHash ≠ p.hash) :
    Block.isValid H b (some p) = false := by
  unfold Block.isValid
  simp [h]

/-- A stored hash differing from the recomputed one falsifies validation. -/
theorem Block.isValid_false_of_hash (H : JSStr → JSStr) (b : Block)
    (p : Option Block) (h : b.hash ≠ b.calculateHash H) :
    Block.isValid H b p = false := by
  unfold Block.isValid
  simp [h]

/-- Unpacking of chain validity over a two-or-more-element chain. -/
theorem chainValid_cons_elim (H : JSStr → JSStr) (a b : Block)
    (r : List Block) (h : Blockchain.chainValid H (a :: b :: r) = true) :
    b.isValid H (some a) = true ∧ Blockchain.chainValid H (b :: r) = true := by
  simp only [Blockchain.chainValid, Bool.and_eq_true] at h
  exact h

/-- An invalid tail makes the whole chain invalid. -/
theorem chainValid_cons_false (H : JSStr → JSStr) (a : Block)
    (l : List Block) (h : Blockchain.chainValid H l = false) :
    Blockchain.chainValid H (a :: l) = false := by
  match l with
  | [] => cases h
  | x :: r =>
    simp only [Blockchain.chainValid] at h ⊢
    simp [h]

/-- The last element of a nonempty list does not depend on the default. -/
theorem getLastD_irrel {α : Type} :
    ∀ (l : List α) (d1 d2 : α), l ≠ [] → l.getLastD d1 = l.getLastD d2 := by
  intro l
  induction l with
  | nil => intro d1 d2 h; cases h rfl
  | cons a r ih =>
    intro d1 d2 _
    match r with
    | [] => rfl
    | x :: r' => exact ih d1 d2 (by simp)

/-- Appending a block validating against the current last block keeps the
chain valid. -/
theorem chainValid_append (H : JSStr → JSStr) (b : Block) :
    ∀ c : List Block, Blockchain.chainValid H c = true →
      (c ≠ [] → b.isValid H (some (c.getLastD Blockchain.dummyBlock)) = true) →
      Blockchain.chainValid H (c ++ [b]) = true := by
  intro c
  induction c with
  | nil => intro _ _; rfl
  | cons a cs ih =>
    intro hc hb
    match cs with
    | [] =>
      have hv := hb (by simp)
      have he : ([a].getLastD Blockchain.dummyBlock) = a := rfl
      rw [he] at hv
      simp [Blockchain.chainValid, hv]
    | a2 :: r =>
      obtain ⟨h1, h2⟩ := chainValid_cons_elim H a a2 r hc
      have hb' : (a2 :: r) ≠ [] →
          b.isValid H (some ((a2 :: r).getLastD Blockchain.dummyBlock)) = true := by
        intro _
        have := hb (by simp)
        rwa [show ((a :: a2 :: r).getLastD Blockchain.dummyBlock) =
          ((a2 :: r).getLastD Blockchain.dummyBlock) from
            (getLastD_irrel (a2 :: r) a Blockchain.dummyBlock (by simp)).symm ▸ rfl] at this
      have ht := ih h2 hb'
      have hg : Blockchain.chainValid H ((a :: a2 :: r) ++ [b]) =
          (Block.isValid H a2 (some a) && Blockchain.chainValid H ((a2 :: r) ++ [b])) := rfl
      rw [hg, h1, ht]
      rfl

/-- An addBlock call either leaves the chain unchanged or appends the
(fee-written) block, which then validates against the previous tip. -/
theorem addBlock_chain_cases (H : JSStr → JSStr) (S : Block → Bool)
    (s : Blockchain) (b : Block) :
    (Blockchain.addBlock H S s b).1.chain = s.chain ∨
    ((Blockchain.addBlock H S s b).1.chain =
        s.chain ++ [{ b with transactions := b.transactions.map (Transaction.feeEffect H) }] ∧
      Block.isValid H { b with transactions := b.transactions.map (Transaction.feeEffect H) }
        (some s.getLatestBlock) = true) := by
  by_cases hv : Block.isValid H b (some s.getLatestBlock) = true
  · by_cases hh : b.header.height = s.getLatestBlock.header.height + 1
    · by_cases hs : S b = true
      · right
        constructor
        · unfold Blockchain.addBlock
          rw [if_neg (by simp [hv]), if_neg (by simp [hh]), if_neg (by simp [hs])]
        · rw [Block.isValid_feeMap]
          exact hv
      · left
        rw [(addBlock_rejects H S s b).2.2 (by simpa using hs)]
    · left
      rw [(addBlock_rejects H S s b).2.1 hh]
  · left
    rw [(addBlock_rejects H S s b).1 (by simpa using hv)]

/-- Admitting a block through addBlock preserves chain validity. -/
theorem addBlock_preserves_chainValid (H : JSStr → JSStr) (S : Block → Bool)
    (s : Blockchain) (b : Block)
    (hc : Blockchain.chainValid H s.chain = true) :
    Blockchain.chainValid H (Blockchain.addBlock H S s b).1.chain = true := by
  rcases addBlock_chain_cases H S s b with h | ⟨h1, h2⟩
  · rw [h]
    exact hc
  · rw [h1]
    exact chainValid_append H _ s.chain hc (fun _ => h2)

/-- The difficulty retarget does not touch the chain. -/
theorem adjustDifficultyState_chain (s : Blockchain) :
    (Blockchain.adjustDifficultyState s).chain = s.chain := by
  unfold Blockchain.adjustDifficultyState
  split <;> rfl

/-- The mining stage (retarget plus pool fee writes) does not touch the
chain. -/
theorem mineStage_chain (H : JSStr → JSStr) (s : Blockchain) :
    (Blockchain.mineStage H s).chain = s.chain := by
  unfold Blockchain.mineStage
  rw [adjustDifficultyState_chain]

/-- A mineBlock call preserves chain validity, whether or not it succeeds. -/
theorem mineBlock_preserves_chainValid (H : JSStr → JSStr)
    (S : Block → Bool) (s : Blockchain) (addr : JSStr) (now fuel : Nat)
    (hc : Blockchain.chainValid H s.chain = true) :
    Blockchain.chainValid H
      (Blockchain.mineBlock H S s addr now fuel).1.chain = true := by
  unfold Blockchain.mineBlock
  have hstage : Blockchain.chainValid H (Blockchain.mineStage H s).chain = true := by
    rw [mineStage_chain]
    exact hc
  rcases hcand : Blockchain.mineCandidate H s addr now fuel with _ | nb
  · simpa using hstage
  · simp only []
    exact addBlock_preserves_chainValid H S (Blockchain.mineStage H s) nb hstage

/-- Tampering with any stored hash of a valid chain of at least two blocks
falsifies chain validation: a non-genesis block fails its own stored-hash
check, and the genesis block breaks its successor's linkage check. -/
theorem chainValid_tamper (H : JSStr → JSStr) :
    ∀ (c : List Block), Blockchain.chainValid H c = true → 2 ≤ c.length →
      ∀ (i : Nat) (hi : i < c.length) (h' : JSStr),
        h' ≠ (c.get ⟨i, hi⟩).hash →
        Blockchain.chainValid H
          (c.set i { c.get ⟨i, hi⟩ with hash := h' }) = false := by
  intro c
  induction c with
  | nil => intro _ hl; simp at hl
  | cons a cs ih =>
    intro hc hl i hi h' hne
    match cs, hc, hl, ih with
    | b :: r, hc, _, ih =>
      obtain ⟨hv, htail⟩ := chainValid_cons_elim H a b r hc
      obtain ⟨hbh, _, hlink, _⟩ := Block.isValid_some_elim H b a hv
      match i, hi, hne with
      | 0, _, hne =>
        have hne0 : h' ≠ a.hash := hne
        have hfalse : Block.isValid H b
            (some { a with hash := h' }) = false := by
          apply Block.isValid_false_of_prevHash
          rw [hlink]
          intro hcontra
          exact hne0 hcontra.symm
        have hg : Blockchain.chainValid H
            ({ a with hash := h' } :: b :: r) =
            (Block.isValid H b (some { a with hash := h' }) &&
              Blockchain.chainValid H (b :: r)) := rfl
        show Blockchain.chainValid H ({ a with hash := h' } :: b :: r) = false
        rw [hg, hfalse]
        rfl
      | 1, hi, hne =>
        have hne1 : h' ≠ b.hash := hne
        have hfalse : Block.isValid H { b with hash := h' }
            (some a) = false := by
          apply Block.isValid_false_of_hash
          have hcalc : Block.calculateHash H { b with hash := h' } =
              Block.calculateHash H b := rfl
          rw [hcalc, ← hbh]
          exact hne1
        have hg : Blockchain.chainValid H
            (a :: { b with hash := h' } :: r) =
            (Block.isValid H { b with hash := h' } (some a) &&
              Blockchain.chainValid H ({ b with hash := h' } :: r)) := rfl
        show Blockchain.chainValid H
          (a :: { b with hash := h' } :: r) = false
        rw [hg, hfalse]
        rfl
      | j + 2, hi, hne =>
        have hj : j + 1 < (b :: r).length := Nat.lt_of_succ_lt_succ hi
        have hnej : h' ≠ ((b :: r).get ⟨j + 1, hj⟩).hash := hne
        have hr : 2 ≤ (b :: r).length := by omega
        have hrec := ih htail hr (j + 1) hj h' hnej
        show Blockchain.chainValid H
          (a :: ((b :: r).set (j + 1)
            { (b :: r).get ⟨j + 1, hj⟩ with hash := h' })) = false
        exact chainValid_cons_false H a _ hrec

/-- A sequence of mineBlock calls preserves chain validity. -/
theorem applyMineOps_preserves_chainValid (H : JSStr → JSStr)
    (S : Block → Bool) :
    ∀ (ops : List Blockchain.MineOp) (s : Blockchain),
      Blockchain.chainValid H s.chain = true →
      Blockchain.chainValid H
        (Blockchain.applyMineOps H S s ops).chain = true := by
  intro ops
  induction ops with
  | nil => intro s h; exact h
  | cons op ops ih =>
    intro s h
    exact ih _ (mineBlock_preserves_chainValid H S s op.addr op.now op.fuel h)

/-- Claim C6 (amended): isChainValid holds on the freshly initialised
genesis-only ledger and is preserved by every sequence of mineBlock calls;
and on any valid chain of at least two blocks, replacing any block's
stored hash by a different string falsifies it.  (On the genesis-only
chain tampering with the genesis hash goes undetected, because validation
only examines blocks from height 1 on: see the counterexample.) -/
theorem chain_validity_lifecycle (H : JSStr → JSStr) (S : Block → Bool) :
    (∀ g : Block, Blockchain.isChainValid H (Blockchain.initFresh g) = true) ∧
    (∀ (g : Block) (ops : List Blockchain.MineOp),
      Blockchain.isChainValid H
        (Blockchain.applyMineOps H S (Blockchain.initFresh g) ops) = true) ∧
    (∀ (s : Blockchain), Blockchain.isChainValid H s = true →
      2 ≤ s.chain.length →
      ∀ (i : Nat) (hi : i < s.chain.length) (h' : JSStr),
        h' ≠ (s.chain.get ⟨i, hi⟩).hash →
        Blockchain.isChainValid H
          { s with chain := s.chain.set i { s.chain.get ⟨i, hi⟩ with hash := h' } } = false) := by
  refine ⟨fun g => rfl, fun g ops => ?_, fun s hc hl i hi h' hne => ?_⟩
  · exact applyMineOps_preserves_chainValid H S ops (Blockchain.initFresh g) rfl
  · exact chainValid_tamper H s.chain hc hl i hi h' hne

/-- Counterexample to claim C6 as stated: on the genesis-only ledger,
changing a byte of the genesis block's stored hash leaves isChainValid
true, because validation only examines blocks from height 1 on. -/
theorem chain_tamper_genesis_only_cex :
    Blockchain.isChainValid testHash (Blockchain.initFresh Scenario.genesis) = true ∧
    Scenario.genesisTampered.hash ≠ Scenario.genesis.hash ∧
    Blockchain.isChainValid testHash
      { Blockchain.initFresh Scenario.genesis with
          chain := [Scenario.genesisTampered] } = true := by decide

/-- Witness for the amended claim C6 at a concrete two-block chain:
flipping the leading character of the genesis hash after a second block
was admitted falsifies isChainValid. -/
theorem chain_validity_lifecycle_witness :
    Blockchain.isChainValid testHash
      { Scenario.d1.1 with chain := Scenario.d1.1.chain.set 0 Scenario.genesisTampered } = false := by
  exact (chain_validity_lifecycle testHash Scenario.saveOk).2.2 Scenario.d1.1
    (by decide) (by decide) 0 (by decide) ('1' :: Scenario.genesis.hash.tail)
    (by decide)

/-- Unfolding of mapGet? over a cons cell. -/
theorem mapGet?_cons {α : Type} (p : JSStr × α) (r : List (JSStr × α))
    (k : JSStr) :
    mapGet? (p :: r) k = if p.1 = k then some p.2 else mapGet? r k := by
  unfold mapGet?
  by_cases h : p.1 = k
  · rw [List.find?_cons_of_pos _ (by simpa using h), if_pos h]
    rfl
  · rw [List.find?_cons_of_neg _ (by simpa using h), if_neg h]

/-- Unfolding of mapHas over a cons cell. -/
theorem mapHas_cons {α : Type} (p : JSStr × α) (r : List (JSStr × α))
    (k : JSStr) :
    mapHas (p :: r) k = (decide (p.1 = k) || mapHas r k) := by
  unfold mapHas
  rfl

/-- mapHas is the definedness of mapGet?. -/
theorem mapHas_iff_get {α : Type} :
    ∀ (m : List (JSStr × α)) (k : JSStr),
      mapHas m k = (mapGet? m k).isSome := by
  intro m k
  induction m with
  | nil => rfl
  | cons p r ih =>
    rw [mapHas_cons, mapGet?_cons]
    by_cases h : p.1 = k
    · simp [h]
    · simp [h, ih]

/-- A key is reported absent exactly when it is no entry's key. -/
theorem mapHas_eq_false_iff {α : Type} :
    ∀ (m : List (JSStr × α)) (k : JSStr),
      mapHas m k = false ↔ k ∉ m.map (·.1) := by
  intro m k
  induction m with
  | nil => simp [mapHas]
  | cons p r ih =>
    rw [mapHas_cons]
    simp only [Bool.or_eq_false_iff, decide_eq_false_iff_not, List.map_cons,
      List.mem_cons, ih]
    constructor
    · rintro ⟨h1, h2⟩ (h | h)
      · exact h1 h.symm
      · exact h2 h
    · intro h
      exact ⟨fun he => h (.inl he.symm), fun he => h (.inr he)⟩

/-- An absent key reads as none. -/
theorem mapGet?_eq_none_of_not_has {α : Type} (m : List (JSStr × α))
    (k : JSStr) (h : mapHas m k = false) : mapGet? m k = none := by
  rw [mapHas_iff_get] at h
  rcases he : mapGet? m k with _ | v
  · rfl
  · rw [he] at h
    cases h

/-- Replacing the value stored under a key changes no entry's key. -/
theorem replace_keys {α : Type} (k : JSStr) (v : α) :
    ∀ m : List (JSStr × α),
      (m.map fun p => if p.1 = k then (k, v) else p).map (·.1) =
        m.map (·.1) := by
  intro m
  induction m with
  | nil => rfl
  | cons p r ih =>
    simp only [List.map_cons, ih, List.cons.injEq, and_true]
    by_cases hp : p.1 = k
    · simp [hp]
    · simp [hp]

/-- The keys of mapSet: unchanged on replacement, extended by the new key
on append. -/
theorem mapSet_keys {α : Type} (m : List (JSStr × α)) (k : JSStr) (v : α) :
    (mapSet m k v).map (·.1) =
      if mapHas m k then m.map (·.1) else m.map (·.1) ++ [k] := by
  unfold mapSet
  by_cases h : mapHas m k
  · rw [if_pos h, if_pos h, replace_keys]
  · rw [if_neg h, if_neg h, List.map_append]
    rfl

/-- Reading a key through the in-place replacement of that key. -/
theorem mapGet?_replace {α : Type} (k : JSStr) (v : α) :
    ∀ m : List (JSStr × α), mapHas m k = true →
      mapGet? (m.map fun p => if p.1 = k then (k, v) else p) k = some v := by
  intro m
  induction m with
  | nil => intro h; cases h
  | cons p r ih =>
    intro h
    by_cases hp : p.1 = k
    · simp only [List.map_cons, if_pos hp, mapGet?_cons]
      simp only [if_pos trivial]
    · rw [mapHas_cons] at h
      have hr : mapHas r k = true := by simpa [hp] using h
      simp only [List.map_cons, if_neg hp]
      rw [mapGet?_cons, if_neg hp]
      exact ih hr

/-- Reading a key other than the replaced one through an in-place
replacement. -/
theorem mapGet?_replace_ne {α : Type} (k' : JSStr) (v : α) (k : JSStr)
    (hk : k' ≠ k) :
    ∀ m : List (JSStr × α),
      mapGet? (m.map fun p => if p.1 = k' then (k', v) else p) k =
        mapGet? m k := by
  intro m
  induction m with
  | nil => rfl
  | cons p r ih =>
    by_cases hp : p.1 = k'
    · simp only [List.map_cons, if_pos hp]
      rw [mapGet?_cons, mapGet?_cons, if_neg (by simpa using hk),
        if_neg (hp ▸ hk), ih]
    · simp only [List.map_cons, if_neg hp]
      rw [mapGet?_cons, mapGet?_cons, ih]

/-- Reading a key past an appended entry with a different key. -/
theorem mapGet?_concat_ne {α : Type} (k' : JSStr) (v : α) (k : JSStr)
    (hk : k' ≠ k) :
    ∀ m : List (JSStr × α),
      mapGet? (m ++ [(k', v)]) k = mapGet? m k := by
  intro m
  induction m with
  | nil =>
    show mapGet? [(k', v)] k = mapGet? [] k
    rw [mapGet?_cons, if_neg hk]
  | cons p r ih =>
    simp only [List.cons_append]
    rw [mapGet?_cons, mapGet?_cons, ih]

/-- Reading the key just written yields the written value. -/
theorem mapGet?_set_self {α : Type} (m : List (JSStr × α)) (k : JSStr)
    (v : α) : mapGet? (mapSet m k v) k = some v := by
  unfold mapSet
  by_cases h : mapHas m k
  · rw [if_pos h]
    exact mapGet?_replace k v m h
  · rw [if_neg h]
    induction m with
    | nil =>
      show mapGet? [(k, v)] k = some v
      rw [mapGet?_cons, if_pos rfl]
    | cons p r ih =>
      rw [mapHas_cons] at h
      have hp : ¬(p.1 = k) := by
        intro hc
        exact h (by simp [hc])
      have hr : ¬(mapHas r k = true) := by
        intro hc
        exact h (by simp [hc])
      simp only [List.cons_append]
      rw [mapGet?_cons, if_neg hp]
      exact ih hr

/-- Writing one key does not change the reading of another. -/
theorem mapGet?_set_ne {α : Type} (m : List (JSStr × α)) (k' k : JSStr)
    (v : α) (hk : k' ≠ k) : mapGet? (mapSet m k' v) k = mapGet? m k := by
  unfold mapSet
  by_cases h : mapHas m k'
  · rw [if_pos h]
    exact mapGet?_replace_ne k' v k hk m
  · rw [if_neg h]
    exact mapGet?_concat_ne k' v k hk m

/-- The deleted key is gone. -/
theorem mapHas_del_self {α : Type} (k : JSStr) :
    ∀ m : List (JSStr × α), mapHas (mapDel m k) k = false := by
  intro m
  induction m with
  | nil => rfl
  | cons p r ih =>
    by_cases hp : p.1 = k
    · have he : mapDel (p :: r) k = mapDel r k := by
        unfold mapDel
        rw [List.filter_cons, if_neg (by simp [hp])]
      rw [he]
      exact ih
    · have he : mapDel (p :: r) k = p :: mapDel r k := by
        unfold mapDel
        rw [List.filter_cons, if_pos (by simp [hp])]
      rw [he, mapHas_cons]
      simp [hp, ih]

/-- Deleting a key with no entry is the identity. -/
theorem mapDel_eq_self {α : Type} (k : JSStr) :
    ∀ m : List (JSStr × α), mapHas m k = false → mapDel m k = m := by
  intro m
  induction m with
  | nil => intro _; rfl
  | cons p r ih =>
    intro h
    rw [mapHas_cons] at h
    have hp : ¬(p.1 = k) := by
      intro hc
      simp [hc] at h
    have hr : mapHas r k = false := by simpa [hp] using h
    unfold mapDel at *
    rw [List.filter_cons, if_pos (by simpa using hp), ih hr]

/-- Deleting one key does not change the reading of another. -/
theorem mapGet?_del_ne {α : Type} (k' k : JSStr) (hk : k' ≠ k) :
    ∀ m : List (JSStr × α), mapGet? (mapDel m k') k = mapGet? m k := by
  intro m
  induction m with
  | nil => rfl
  | cons p r ih =>
    unfold mapDel at *
    rw [List.filter_cons]
    by_cases hp : p.1 = k'
    · rw [if_neg (by simpa using hp)]
      rw [mapGet?_cons, if_neg (by rw [hp]; exact hk), ih]
    · rw [if_pos (by simpa using hp)]
      rw [mapGet?_cons, mapGet?_cons, ih]

/-- Deletion preserves absence of any key. -/
theorem mapHas_del_of_false {α : Type} (k' k : JSStr) :
    ∀ m : List (JSStr × α), mapHas m k = false →
      mapHas (mapDel m k') k = false := by
  intro m
  induction m with
  | nil => intro _; rfl
  | cons p r ih =>
    intro h
    rw [mapHas_cons] at h
    have hp : ¬(p.1 = k) := by
      intro hc
      simp [hc] at h
    have hr : mapHas r k = false := by simpa [hp] using h
    unfold mapDel at *
    rw [List.filter_cons]
    by_cases hq : p.1 = k'
    · rw [if_neg (by simpa using hq)]
      exact ih hr
    · rw [if_pos (by simpa using hq), mapHas_cons]
      simp [hp, ih hr]

/-- Unfolding of mapDel over a cons cell. -/
theorem mapDel_cons {α : Type} (p : JSStr × α) (r : List (JSStr × α))
    (k : JSStr) :
    mapDel (p :: r) k = if p.1 = k then mapDel r k else p :: mapDel r k := by
  unfold mapDel
  rw [List.filter_cons]
  by_cases hp : p.1 = k
  · rw [if_neg (by simp [hp]), if_pos hp]
  · rw [if_pos (by simp [hp]), if_neg hp]

/-- Unfolding of the owned-amount sum over a cons cell. -/
theorem utxoSumFor_cons (p : JSStr × UTXO) (r : List (JSStr × UTXO))
    (a : JSStr) :
    utxoSumFor (p :: r) a =
      (if p.2.address = a then p.2.amount else 0) + utxoSumFor r a := by
  unfold utxoSumFor
  simp only [List.map_cons, List.filter_cons]
  by_cases h : p.2.address = a
  · simp [h]
  · simp [h]

/-- The owned-amount sum of an appended entry. -/
theorem utxoSumFor_concat (m : List (JSStr × UTXO)) (k : JSStr) (u : UTXO)
    (a : JSStr) :
    utxoSumFor (m ++ [(k, u)]) a =
      utxoSumFor m a + (if u.address = a then u.amount else 0) := by
  induction m with
  | nil =>
    show utxoSumFor [(k, u)] a = utxoSumFor [] a + _
    rw [utxoSumFor_cons]
    show _ + 0 = 0 + _
    ring
  | cons p r ih =>
    simp only [List.cons_append, utxoSumFor_cons, ih]
    ring

/-- Deleting a present entry removes exactly its amount from its owner's
sum (duplicate-free keys). -/
theorem utxoSumFor_del (k : JSStr) (u : UTXO) (a : JSStr) :
    ∀ m : List (JSStr × UTXO), (m.map (·.1)).Nodup →
      mapGet? m k = some u →
      utxoSumFor (mapDel m k) a =
        utxoSumFor m a - (if u.address = a then u.amount else 0) := by
  intro m
  induction m with
  | nil => intro _ h; cases h
  | cons p r ih =>
    intro hnd hget
    rw [List.map_cons, List.nodup_cons] at hnd
    rw [mapGet?_cons] at hget
    by_cases hp : p.1 = k
    · rw [if_pos hp] at hget
      have hu : p.2 = u := Option.some.inj hget
      have hk_not : mapHas r k = false := by
        rw [mapHas_eq_false_iff]
        rw [← hp]
        exact hnd.1
      rw [mapDel_cons, if_pos hp, mapDel_eq_self k r hk_not,
        utxoSumFor_cons, hu]
      ring
    · rw [if_neg hp] at hget
      rw [mapDel_cons, if_neg hp, utxoSumFor_cons, utxoSumFor_cons,
        ih hnd.2 hget]
      ring

/-- mapSet keeps keys duplicate-free. -/
theorem mapSet_keys_nodup {α : Type} (m : List (JSStr × α)) (k : JSStr)
    (v : α) (h : (m.map (·.1)).Nodup) :
    ((mapSet m k v).map (·.1)).Nodup := by
  rw [mapSet_keys]
  by_cases hh : mapHas m k
  · rw [if_pos hh]
    exact h
  · rw [if_neg hh]
    have hk : k ∉ m.map (·.1) :=
      (mapHas_eq_false_iff m k).mp (by simpa using hh)
    simp [List.nodup_append, h, hk]

/-- mapDel keeps keys duplicate-free. -/
theorem mapDel_keys_nodup {α : Type} (m : List (JSStr × α)) (k : JSStr)
    (h : (m.map (·.1)).Nodup) : ((mapDel m k).map (·.1)).Nodup := by
  have hs : List.Sublist ((mapDel m k).map (·.1)) (m.map (·.1)) :=
    (List.filter_sublist m).map (·.1)
  exact h.sublist hs

/-- Decimal digit characters are never the colon. -/
theorem digitChar10_ne_colon (d : Nat) (h : d < 10) : digitChar10 d ≠ ':' := by
  interval_cases d <;> decide

/-- The decimal rendering loop never emits a colon. -/
theorem natStrAux_ne_colon : ∀ (fuel n : Nat), ':' ∉ natStrAux fuel n := by
  intro fuel
  induction fuel with
  | zero =>
    intro n
    unfold natStrAux
    by_cases h : n < 10
    · rw [if_pos h]
      intro hm
      exact digitChar10_ne_colon n h (List.mem_singleton.mp hm).symm
    · rw [if_neg h]
      simp
  | succ f ih =>
    intro n
    unfold natStrAux
    by_cases h : n < 10
    · rw [if_pos h]
      intro hm
      exact digitChar10_ne_colon n h (List.mem_singleton.mp hm).symm
    · rw [if_neg h]
      intro hm
      rcases List.mem_append.mp hm with hm | hm
      · exact ih (n / 10) hm
      · exact digitChar10_ne_colon (n % 10) (Nat.mod_lt _ (by norm_num))
          (List.mem_singleton.mp hm).symm

/-- The integer rendering never emits a colon. -/
theorem intStr_ne_colon (i : Int) : ':' ∉ intStr i := by
  cases i with
  | ofNat n => exact natStrAux_ne_colon n n
  | negSucc n =>
    intro hm
    rcases List.mem_cons.mp hm with hm | hm
    · cases hm
    · exact natStrAux_ne_colon (n + 1) (n + 1) hm

/-- A string of the form prefix-colon-suffix with a colon-free suffix
determines its prefix. -/
theorem append_colon_inj :
    ∀ (a b u v : JSStr), ':' ∉ u → ':' ∉ v →
      a ++ ':' :: u = b ++ ':' :: v → a = b := by
  intro a
  induction a with
  | nil =>
    intro b u v hu hv h
    match b, h with
    | [], _ => rfl
    | c :: b', h =>
      simp only [List.nil_append, List.cons_append, List.cons.injEq] at h
      exact absurd (h.2 ▸ List.mem_append.mpr (.inr (List.mem_cons_self _ _)))
        hu
  | cons x a' ih =>
    intro b u v hu hv h
    match b, h with
    | [], h =>
      simp only [List.cons_append, List.nil_append, List.cons.injEq] at h
      exact absurd (h.2.symm ▸ List.mem_append.mpr (.inr (List.mem_cons_self _ _)))
        hv
    | y :: b', h =>
      simp only [List.cons_append, List.cons.injEq] at h
      rw [h.1, ih b' u v hu hv h.2]

/-- Two UTXO index keys agree only if their transaction ids agree. -/
theorem utxoKey_inj_left (a b : JSStr) (i j : Int)
    (h : utxoKey a i = utxoKey b j) : a = b :=
  append_colon_inj a b (intStr i) (intStr j) (intStr_ne_colon i)
    (intStr_ne_colon j) h

/-- Writing a different key preserves absence. -/
theorem mapHas_set_false {α : Type} (m : List (JSStr × α)) (k' k : JSStr)
    (v : α) (hk : k' ≠ k) (h : mapHas m k = false) :
    mapHas (mapSet m k' v) k = false := by
  rw [mapHas_eq_false_iff] at h ⊢
  rw [mapSet_keys]
  by_cases hh : mapHas m k'
  · rw [if_pos hh]
    exact h
  · rw [if_neg hh]
    intro hm
    rcases List.mem_append.mp hm with hm | hm
    · exact h hm
    · exact hk (List.mem_singleton.mp hm).symm

/-- Spending an input never touches the ghost flag. -/
theorem applyInput_fresh (st : UtxoState) (inp : TransactionInput) :
    (applyInput st inp).fresh = st.fresh := by
  unfold applyInput
  by_cases hc : inp.txId ≠ [] ∧ 0 ≤ inp.outputIndex
  · rw [if_pos hc]
    rcases hg : mapGet? st.utxo (utxoKey inp.txId inp.outputIndex) with _ | u
    · simp [hg]
    · simp [hg]
  · rw [if_neg hc]

/-- Spending an input preserves absence of any key. -/
theorem applyInput_absent (st : UtxoState) (inp : TransactionInput)
    (k : JSStr) (h : mapHas st.utxo k = false) :
    mapHas (applyInput st inp).utxo k = false := by
  unfold applyInput
  split
  · rcases hg : mapGet? st.utxo (utxoKey inp.txId inp.outputIndex) with _ | u
    · simpa [hg] using h
    · simp only [hg]
      exact mapHas_del_of_false _ k st.utxo h
  · exact h

/-- Spending an active input leaves its referenced key absent. -/
theorem applyInput_kills (st : UtxoState) (inp : TransactionInput)
    (h1 : inp.txId ≠ []) (h2 : 0 ≤ inp.outputIndex) :
    mapHas (applyInput st inp).utxo
      (utxoKey inp.txId inp.outputIndex) = false := by
  unfold applyInput
  rw [if_pos ⟨h1, h2⟩]
  rcases hg : mapGet? st.utxo (utxoKey inp.txId inp.outputIndex) with _ | u
  · simp only [hg]
    rw [mapHas_iff_get, hg]
    rfl
  · simp only [hg]
    exact mapHas_del_self _ st.utxo

/-- The input fold preserves absence of any key. -/
theorem foldl_applyInput_absent (k : JSStr) :
    ∀ (l : List TransactionInput) (st : UtxoState),
      mapHas st.utxo k = false →
      mapHas ((l.foldl applyInput st).utxo) k = false := by
  intro l
  induction l with
  | nil => intro st h; exact h
  | cons i l ih =>
    intro st h
    exact ih _ (applyInput_absent st i k h)

/-- After the input fold over a list containing an active reference to a
key, that key is absent. -/
theorem foldl_applyInput_kills (inp : TransactionInput)
    (h1 : inp.txId ≠ []) (h2 : 0 ≤ inp.outputIndex) :
    ∀ (l : List TransactionInput) (st : UtxoState), inp ∈ l →
      mapHas ((l.foldl applyInput st).utxo)
        (utxoKey inp.txId inp.outputIndex) = false := by
  intro l
  induction l with
  | nil => intro st h; cases h
  | cons i l ih =>
    intro st hm
    rcases List.mem_cons.mp hm with hm | hm
    · subst hm
      exact foldl_applyInput_absent _ l _ (applyInput_kills st inp h1 h2)
    · exact ih _ hm

/-- Creating outputs of a transaction with a different id preserves
absence of a key. -/
theorem applyOutputs_absent (X : JSStr) (n : Int) (tId : JSStr)
    (hid : tId ≠ X) (hgt : Nat) :
    ∀ (os : List TransactionOutput) (idx : Nat) (st : UtxoState),
      mapHas st.utxo (utxoKey X n) = false →
      mapHas ((applyOutputs tId hgt idx os st).utxo) (utxoKey X n) = false := by
  intro os
  induction os with
  | nil => intro idx st h; exact h
  | cons o os ih =>
    intro idx st h
    simp only [applyOutputs]
    apply ih (idx + 1)
    apply mapHas_set_false
    · intro hk
      exact hid (utxoKey_inj_left _ _ _ _ hk)
    · exact h

/-- Processing a transaction with a different id preserves absence of a
key. -/
theorem applyTx_absent (X : JSStr) (n : Int) (hgt : Nat)
    (t : Transaction) (hid : t.id ≠ X) (st : UtxoState)
    (h : mapHas st.utxo (utxoKey X n) = false) :
    mapHas ((applyTx hgt st t).utxo) (utxoKey X n) = false := by
  unfold applyTx
  exact applyOutputs_absent X n t.id hid hgt t.outputs 0 _
    (foldl_applyInput_absent _ t.inputs st h)

/-- Processing a transaction that actively spends a key, and whose own id
differs from the key's transaction id, leaves the key absent. -/
theorem applyTx_kills (X : JSStr) (n : Int) (hgt : Nat) (t : Transaction)
    (inp : TransactionInput) (hin : inp ∈ t.inputs) (hX : inp.txId = X)
    (hn : inp.outputIndex = n) (h1 : inp.txId ≠ [])
    (hid : t.id ≠ X) (st : UtxoState) (h2 : 0 ≤ inp.outputIndex) :
    mapHas ((applyTx hgt st t).utxo) (utxoKey X n) = false := by
  unfold applyTx
  apply applyOutputs_absent X n t.id hid hgt t.outputs 0
  rw [← hX, ← hn]
  exact foldl_applyInput_kills inp h1 h2 t.inputs st hin

/-- The transaction fold preserves absence when no transaction carries the
key's id. -/
theorem foldl_applyTx_absent (X : JSStr) (n : Int) (hgt : Nat) :
    ∀ (txs : List Transaction) (st : UtxoState),
      (∀ t' ∈ txs, t'.id ≠ X) →
      mapHas st.utxo (utxoKey X n) = false →
      mapHas ((txs.foldl (applyTx hgt) st).utxo) (utxoKey X n) = false := by
  intro txs
  induction txs with
  | nil => intro st _ h; exact h
  | cons t ts ih =>
    intro st hids h
    exact ih _ (fun t' ht' => hids t' (List.mem_cons_of_mem t ht'))
      (applyTx_absent X n hgt t (hids t (List.mem_cons_self t ts)) st h)

/-- After the transaction fold over a list one of whose members actively
spends a key, and none of whose members carries the key's id, the key is
absent from the index. -/
theorem foldl_applyTx_key_gone (X : JSStr) (n : Int) (hgt : Nat) :
    ∀ (txs : List Transaction) (st : UtxoState) (tx : Transaction)
      (inp : TransactionInput), tx ∈ txs → inp ∈ tx.inputs →
      inp.txId = X → inp.outputIndex = n → X ≠ [] → 0 ≤ n →
      (∀ t' ∈ txs, t'.id ≠ X) →
      mapHas ((txs.foldl (applyTx hgt) st).utxo) (utxoKey X n) = false := by
  intro txs
  induction txs with
  | nil => intro st tx inp htx; cases htx
  | cons t ts ih =>
    intro st tx inp htx hin hX hn hXne hnn h3
    rcases List.mem_cons.mp htx with hm | hm
    · subst hm
      exact foldl_applyTx_absent X n hgt ts _
        (fun t' ht' => h3 t' (List.mem_cons_of_mem tx ht'))
        (applyTx_kills X n hgt tx inp hin hX hn (hX ▸ hXne)
          (h3 tx (List.mem_cons_self tx ts)) st (hn ▸ hnn))
    · exact ih _ tx inp hm hin hX hn hXne hnn
        (fun t' ht' => h3 t' (List.mem_cons_of_mem t ht'))

/-- After processing a block one of whose transactions actively spends a
key, and none of whose transactions carries the key's id, the key is
absent from the index. -/
theorem applyBlock_key_gone (b : Block) (st : UtxoState) (tx : Transaction)
    (inp : TransactionInput) (htx : tx ∈ b.transactions)
    (hin : inp ∈ tx.inputs) (h1 : inp.txId ≠ []) (h2 : 0 ≤ inp.outputIndex)
    (h3 : ∀ t' ∈ b.transactions, t'.id ≠ inp.txId) :
    mapHas ((applyBlockUTXO b st).utxo)
      (utxoKey inp.txId inp.outputIndex) = false := by
  unfold applyBlockUTXO
  exact foldl_applyTx_key_gone inp.txId inp.outputIndex b.header.height
    b.transactions st tx inp htx hin rfl rfl h1 h2 h3

/-- On success, addBlock installs the maps obtained by processing the
(fee-written) block through updateUTXOSet. -/
theorem addBlock_success_state (H : JSStr → JSStr) (S : Block → Bool)
    (s : Blockchain) (b : Block)
    (h : (Blockchain.addBlock H S s b).2 = true) :
    (Blockchain.addBlock H S s b).1.utxoSet =
      (applyBlockUTXO { b with transactions := b.transactions.map (Transaction.feeEffect H) }
        ⟨s.utxoSet, s.addressBalances, true⟩).utxo ∧
    (Blockchain.addBlock H S s b).1.addressBalances =
      (applyBlockUTXO { b with transactions := b.transactions.map (Transaction.feeEffect H) }
        ⟨s.utxoSet, s.addressBalances, true⟩).bal := by
  by_cases hv : Block.isValid H b (some s.getLatestBlock) = true
  · by_cases hh : b.header.height = s.getLatestBlock.header.height + 1
    · by_cases hs : S b = true
      · constructor
        · unfold Blockchain.addBlock
          rw [if_neg (by simp [hv]), if_neg (by simp [hh]), if_neg (by simp [hs])]
        · unfold Blockchain.addBlock
          rw [if_neg (by simp [hv]), if_neg (by simp [hh]), if_neg (by simp [hs])]
      · rw [(addBlock_rejects H S s b).2.2 (by simpa using hs)] at h
        cases h
    · rw [(addBlock_rejects H S s b).2.1 hh] at h
      cases h
  · rw [(addBlock_rejects H S s b).1 (by simpa using hv)] at h
    cases h

/-- addTransaction refuses any transaction carrying an active input whose
referenced key is absent from the UTXO index, leaving the ledger
unchanged. -/
theorem addTransaction_false_of_missing_utxo (H : JSStr → JSStr)
    (s : Blockchain) (t : Transaction) (inp : TransactionInput)
    (hin : inp ∈ t.inputs) (h1 : inp.txId ≠ []) (h2 : 0 ≤ inp.outputIndex)
    (h3 : mapHas s.utxoSet (utxoKey inp.txId inp.outputIndex) = false) :
    Blockchain.addTransaction H s t = (s, false) := by
  unfold Blockchain.addTransaction
  by_cases hval : t.isValid H = true
  · rw [if_neg (by simp [hval])]
    by_cases hp : s.memPool.any (fun tx => decide (tx.id = (t.feeEffect H).id)) = true
    · rw [if_pos hp]
    · rw [if_neg hp]
      by_cases hc : s.isTransactionInBlockchain (t.feeEffect H).id = true
      · rw [if_pos hc]
      · rw [if_neg hc]
        have hall : ((t.feeEffect H).inputs.all fun inp =>
            (decide (inp.txId = []) || decide (inp.outputIndex < 0)) ||
              mapHas s.utxoSet (utxoKey inp.txId inp.outputIndex)) = false := by
          rw [Transaction.feeEffect_inputs]
          rw [List.all_eq_false]
          refine ⟨inp, hin, ?_⟩
          simp [h1, h3, not_lt.mpr h2]
        rw [if_pos (by simp [hall])]
  · rw [if_pos (by simpa using hval)]

/-- Claim C1 (amended): after a block spending an unspent output is
admitted by addBlock, and no transaction of that block re-carries the
spent output's transaction id, the spent output's key is absent from the
post-block UTXO index, and re-validating any transaction referencing that
output through addTransaction fails.  (The claim's stronger assertion
that at most one transaction referencing the output is ever included in
an admitted block is refuted by the counterexample, in which a single
mined block contains two distinct transactions spending the same output.) -/
theorem spent_output_gone (H : JSStr → JSStr) (S : Block → Bool)
    (s : Blockchain) (b : Block) (tx : Transaction)
    (inp : TransactionInput)
    (hadd : (Blockchain.addBlock H S s b).2 = true)
    (htx : tx ∈ b.transactions) (hin : inp ∈ tx.inputs)
    (h1 : inp.txId ≠ []) (h2 : 0 ≤ inp.outputIndex)
    (h3 : ∀ tx' ∈ b.transactions, tx'.id ≠ inp.txId) :
    mapHas (Blockchain.addBlock H S s b).1.utxoSet
      (utxoKey inp.txId inp.outputIndex) = false ∧
    ∀ t' : Transaction, (∃ inp' ∈ t'.inputs,
        inp'.txId = inp.txId ∧ inp'.outputIndex = inp.outputIndex) →
      Blockchain.addTransaction H (Blockchain.addBlock H S s b).1 t' =
        ((Blockchain.addBlock H S s b).1, false) := by
  have hgone : mapHas (Blockchain.addBlock H S s b).1.utxoSet
      (utxoKey inp.txId inp.outputIndex) = false := by
    rw [(addBlock_success_state H S s b hadd).1]
    apply applyBlock_key_gone _ _ (tx.feeEffect H)
      { inp with signature := inp.signature }
    · show tx.feeEffect H ∈ b.transactions.map (Transaction.feeEffect H)
      exact List.mem_map_of_mem _ htx
    · rw [Transaction.feeEffect_inputs]
      simpa using hin
    · exact h1
    · exact h2
    · intro t' ht'
      rcases List.mem_map.mp ht' with ⟨t0, ht0, rfl⟩
      rw [Transaction.feeEffect_id]
      exact h3 t0 ht0
  refine ⟨hgone, fun t' ⟨inp', hin', hid', hidx'⟩ => ?_⟩
  apply addTransaction_false_of_missing_utxo H _ t' inp' hin'
  · rw [hid']
    exact h1
  · rw [hidx']
    exact h2
  · rw [hid', hidx']
    exact hgone

/-- Counterexample to claim C1 as stated: from the fresh ledger, two
distinct pool transactions spending the same genesis output are both
accepted by addTransaction, and the very next mineBlock call includes
both of them in the single admitted block - more than one transaction
referencing the output enters the chain. -/
theorem double_spend_both_mined_cex :
    (Blockchain.addTransaction testHash Scenario.s0 Scenario.tx1).2 = true ∧
    (Blockchain.addTransaction testHash Scenario.s1 Scenario.tx2).2 = true ∧
    Scenario.mineRes.2 = some Scenario.minedB ∧
    Scenario.minedB ∈ Scenario.s3.chain ∧
    Scenario.tx1 ∈ Scenario.minedB.transactions ∧
    Scenario.tx2 ∈ Scenario.minedB.transactions ∧
    Scenario.tx1.id ≠ Scenario.tx2.id ∧
    Scenario.tx1.inputs.map (fun i => (i.txId, i.outputIndex)) =
      [(Scenario.gtx.id, 0)] ∧
    Scenario.tx2.inputs.map (fun i => (i.txId, i.outputIndex)) =
      [(Scenario.gtx.id, 0)] ∧
    mapHas Scenario.s0.utxoSet (utxoKey Scenario.gtx.id 0) = true := by
  decide

/-- Witness for the amended claim C1 at a concrete run: after the block
spending the genesis output is admitted, the output's key is gone from
the index and a further spend of it is refused by addTransaction. -/
theorem spent_output_gone_witness :
    mapHas Scenario.d1.1.utxoSet (utxoKey Scenario.gtx.id 0) = false ∧
    Blockchain.addTransaction testHash Scenario.d1.1 Scenario.tx3 =
      (Scenario.d1.1, false) := by
  have h := spent_output_gone testHash Scenario.saveOk Scenario.s0
    Scenario.b1 Scenario.txS Scenario.txSInput (by decide) (by decide)
    (by decide) (by decide) (by decide) (by decide)
  exact ⟨h.1, h.2 Scenario.tx3 (by decide)⟩

/-- Reading the key just written, with a default. -/
theorem mapGetD_set_self {α : Type} (m : List (JSStr × α)) (k : JSStr)
    (v d : α) : mapGetD (mapSet m k v) k d = v := by
  unfold mapGetD
  rw [mapGet?_set_self]
  rfl

/-- Writing one key does not change another's read, with a default. -/
theorem mapGetD_set_ne {α : Type} (m : List (JSStr × α)) (k' k : JSStr)
    (v d : α) (hk : k' ≠ k) : mapGetD (mapSet m k' v) k d = mapGetD m k d := by
  unfold mapGetD
  rw [mapGet?_set_ne m k' k v hk]

/-- Spending an input preserves map well-formedness unconditionally. -/
theorem applyInput_WF (st : UtxoState) (inp : TransactionInput)
    (h : stWF st) : stWF (applyInput st inp) := by
  unfold applyInput
  by_cases hc : inp.txId ≠ [] ∧ 0 ≤ inp.outputIndex
  · rw [if_pos hc]
    rcases hg : mapGet? st.utxo (utxoKey inp.txId inp.outputIndex) with _ | u
    · simpa [hg] using h
    · simp only [hg]
      obtain ⟨hn1, hn2, hsum⟩ := h
      refine ⟨mapDel_keys_nodup _ _ hn1, mapSet_keys_nodup _ _ _ hn2, ?_⟩
      intro a
      by_cases ha : u.address = a
      · rw [← ha, mapGetD_set_self,
          utxoSumFor_del _ u u.address st.utxo hn1 hg, if_pos rfl, hsum]
      · rw [mapGetD_set_ne _ _ _ _ _ ha,
          utxoSumFor_del _ u a st.utxo hn1 hg, if_neg ha, hsum]
        ring
  · rw [if_neg hc]
    exact h

/-- The fold of input spends preserves map well-formedness. -/
theorem foldl_applyInput_WF :
    ∀ (l : List TransactionInput) (st : UtxoState), stWF st →
      stWF (l.foldl applyInput st) := by
  intro l
  induction l with
  | nil => intro st h; exact h
  | cons i l ih => intro st h; exact ih _ (applyInput_WF st i h)

/-- The fold of input spends never touches the ghost flag. -/
theorem foldl_applyInput_fresh :
    ∀ (l : List TransactionInput) (st : UtxoState),
      (l.foldl applyInput st).fresh = st.fresh := by
  intro l
  induction l with
  | nil => intro st; rfl
  | cons i l ih => intro st; rw [List.foldl_cons, ih, applyInput_fresh]

/-- The ghost flag only ever decreases across an output fold. -/
theorem applyOutputs_fresh_mono (tId : JSStr) (hgt : Nat) :
    ∀ (os : List TransactionOutput) (idx : Nat) (st : UtxoState),
      (applyOutputs tId hgt idx os st).fresh = true → st.fresh = true := by
  intro os
  induction os with
  | nil => intro idx st h; exact h
  | cons o os ih =>
    intro idx st h
    simp only [applyOutputs] at h
    have hh := ih (idx + 1) _ h
    rw [Bool.and_eq_true] at hh
    exact hh.1

/-- Creating one fresh output preserves map well-formedness. -/
theorem applyOutput_step_WF (st : UtxoState) (tId : JSStr) (hgt idx : Nat)
    (o : TransactionOutput) (h : stWF st)
    (hfresh : mapHas st.utxo (utxoKey tId (idx : Int)) = false) :
    stWF ⟨mapSet st.utxo (utxoKey tId (idx : Int))
        ⟨tId, (idx : Int), o.address, o.amount, hgt⟩,
      mapSet st.bal o.address (mapGetD st.bal o.address 0 + o.amount),
      st.fresh && !(mapHas st.utxo (utxoKey tId (idx : Int)))⟩ := by
  obtain ⟨hn1, hn2, hsum⟩ := h
  have hset : mapSet st.utxo (utxoKey tId (idx : Int))
      ⟨tId, (idx : Int), o.address, o.amount, hgt⟩ =
      st.utxo ++ [(utxoKey tId (idx : Int),
        ⟨tId, (idx : Int), o.address, o.amount, hgt⟩)] := by
    unfold mapSet
    rw [if_neg (by simp [hfresh])]
  refine ⟨?_, mapSet_keys_nodup _ _ _ hn2, ?_⟩
  · exact mapSet_keys_nodup _ _ _ hn1
  · intro a
    rw [hset, utxoSumFor_concat]
    by_cases ha : o.address = a
    · rw [← ha, mapGetD_set_self, hsum]
      simp
    · rw [mapGetD_set_ne _ _ _ _ _ ha, hsum]
      have : (⟨tId, (idx : Int), o.address, o.amount, hgt⟩ : UTXO).address = o.address := rfl
      rw [this, if_neg ha]
      ring

/-- An output fold whose final flag is still set preserves map
well-formedness. -/
theorem applyOutputs_WF (tId : JSStr) (hgt : Nat) :
    ∀ (os : List TransactionOutput) (idx : Nat) (st : UtxoState),
      stWF st → (applyOutputs tId hgt idx os st).fresh = true →
      stWF (applyOutputs tId hgt idx os st) := by
  intro os
  induction os with
  | nil => intro idx st h _; exact h
  | cons o os ih =>
    intro idx st h hfr
    simp only [applyOutputs] at hfr ⊢
    have hst' := applyOutputs_fresh_mono tId hgt os (idx + 1) _ hfr
    have hfresh : mapHas st.utxo (utxoKey tId (idx : Int)) = false := by
      rw [Bool.and_eq_true] at hst'
      simpa using hst'.2
    exact ih (idx + 1) _ (applyOutput_step_WF st tId hgt idx o h hfresh) hfr

/-- Processing one transaction whose final flag is still set preserves
map well-formedness. -/
theorem applyTx_WF (hgt : Nat) (st : UtxoState) (t : Transaction)
    (h : stWF st) (hfr : (applyTx hgt st t).fresh = true) :
    stWF (applyTx hgt st t) := by
  unfold applyTx at hfr ⊢
  exact applyOutputs_WF t.id hgt t.outputs 0 _
    (foldl_applyInput_WF t.inputs st h) hfr

/-- The ghost flag only ever decreases across a transaction. -/
theorem applyTx_fresh_mono (hgt : Nat) (st : UtxoState) (t : Transaction)
    (h : (applyTx hgt st t).fresh = true) : st.fresh = true := by
  unfold applyTx at h
  have := applyOutputs_fresh_mono t.id hgt t.outputs 0 _ h
  rwa [foldl_applyInput_fresh] at this

/-- The transaction fold preserves map well-formedness while the flag
stays set. -/
theorem foldl_applyTx_WF (hgt : Nat) :
    ∀ (txs : List Transaction) (st : UtxoState), stWF st →
      ((txs.foldl (applyTx hgt) st).fresh = true) →
      stWF (txs.foldl (applyTx hgt) st) := by
  intro txs
  induction txs with
  | nil => intro st h _; exact h
  | cons t ts ih =>
    intro st h hfr
    have hmono : ∀ (l : List Transaction) (st' : UtxoState),
        ((l.foldl (applyTx hgt) st').fresh = true) → st'.fresh = true := by
      intro l
      induction l with
      | nil => intro st' h'; exact h'
      | cons x xs ih2 =>
        intro st' h'
        exact applyTx_fresh_mono hgt st' x (ih2 _ h')
    have h1 : (applyTx hgt st t).fresh = true := hmono ts _ hfr
    exact ih _ (applyTx_WF hgt st t h h1) hfr

/-- Processing a block whose ghost flag survives preserves map
well-formedness. -/
theorem applyBlock_WF (b : Block) (st : UtxoState) (h : stWF st)
    (hfr : (applyBlockUTXO b st).fresh = true) :
    stWF (applyBlockUTXO b st) := by
  unfold applyBlockUTXO at hfr ⊢
  exact foldl_applyTx_WF b.header.height b.transactions st h hfr

/-- addTransaction never touches the UTXO index or the balances. -/
theorem addTransaction_maps (H : JSStr → JSStr) (s : Blockchain)
    (t : Transaction) :
    (Blockchain.addTransaction H s t).1.utxoSet = s.utxoSet ∧
    (Blockchain.addTransaction H s t).1.addressBalances =
      s.addressBalances := by
  unfold Blockchain.addTransaction
  by_cases h1 : t.isValid H = true
  · rw [if_neg (by simp [h1])]
    by_cases h2 : s.memPool.any (fun tx => decide (tx.id = (t.feeEffect H).id)) = true
    · rw [if_pos h2]
      exact ⟨rfl, rfl⟩
    · rw [if_neg h2]
      by_cases h3 : s.isTransactionInBlockchain (t.feeEffect H).id = true
      · rw [if_pos h3]
        exact ⟨rfl, rfl⟩
      · rw [if_neg h3]
        by_cases h4 : ((t.feeEffect H).inputs.all fun inp =>
            (decide (inp.txId = []) || decide (inp.outputIndex < 0)) ||
              mapHas s.utxoSet (utxoKey inp.txId inp.outputIndex)) = true
        · rw [if_neg (by simp [h4])]
          exact ⟨rfl, rfl⟩
        · rw [if_pos (by simpa using h4)]
          exact ⟨rfl, rfl⟩
  · rw [if_pos (by simpa using h1)]
    exact ⟨rfl, rfl⟩

/-- A failing addBlock call returns the ledger unchanged. -/
theorem addBlock_fail_state (H : JSStr → JSStr) (S : Block → Bool)
    (s : Blockchain) (b : Block)
    (h : (Blockchain.addBlock H S s b).2 = false) :
    (Blockchain.addBlock H S s b).1 = s := by
  by_cases hv : Block.isValid H b (some s.getLatestBlock) = true
  · by_cases hh : b.header.height = s.getLatestBlock.header.height + 1
    · by_cases hs : S b = true
      · exfalso
        have : (Blockchain.addBlock H S s b).2 = true := by
          unfold Blockchain.addBlock
          rw [if_neg (by simp [hv]), if_neg (by simp [hh]), if_neg (by simp [hs])]
        rw [this] at h
        cases h
      · rw [(addBlock_rejects H S s b).2.2 (by simpa using hs)]
    · rw [(addBlock_rejects H S s b).2.1 hh]
  · rw [(addBlock_rejects H S s b).1 (by simpa using hv)]

/-- The mining stage never touches the UTXO index or the balances. -/
theorem mineStage_maps (H : JSStr → JSStr) (s : Blockchain) :
    (Blockchain.mineStage H s).utxoSet = s.utxoSet ∧
    (Blockchain.mineStage H s).addressBalances = s.addressBalances := by
  unfold Blockchain.mineStage Blockchain.adjustDifficultyState
  split <;> exact ⟨rfl, rfl⟩

/-- The fee writes of validation do not affect UTXO processing of a
transaction (only inputs, id and outputs are read). -/
theorem applyTx_feeEffect (H : JSStr → JSStr) (hgt : Nat) (st : UtxoState)
    (t : Transaction) :
    applyTx hgt st (t.feeEffect H) = applyTx hgt st t := by
  unfold applyTx
  rw [Transaction.feeEffect_inputs, Transaction.feeEffect_id,
    Transaction.feeEffect_outputs]

/-- The fee writes of validation do not affect UTXO processing of a
block. -/
theorem applyBlockUTXO_feeMap (H : JSStr → JSStr) (b : Block)
    (st : UtxoState) :
    applyBlockUTXO
      { b with transactions := b.transactions.map (Transaction.feeEffect H) }
      st = applyBlockUTXO b st := by
  unfold applyBlockUTXO
  show (b.transactions.map (Transaction.feeEffect H)).foldl
    (applyTx b.header.height) st = _
  suffices hgen : ∀ (l : List Transaction) (st : UtxoState),
      (l.map (Transaction.feeEffect H)).foldl (applyTx b.header.height) st =
        l.foldl (applyTx b.header.height) st by
    exact hgen b.transactions st
  intro l
  induction l with
  | nil => intro st; rfl
  | cons t ts ih =>
    intro st
    simp only [List.map_cons, List.foldl_cons, applyTx_feeEffect, ih]

/-- The transactions of a successfully mined genesis block. -/
theorem createGenesisBlock_transactions (H : JSStr → JSStr)
    (now fuel : Nat) (g : Block)
    (h : Block.createGenesisBlock H now fuel = some g) :
    g.transactions =
      [Transaction.createCoinbase H Block.genesisAddress 50 0 now] := by
  unfold Block.createGenesisBlock Block.mineBlock at h
  obtain ⟨n, rfl, _⟩ := mineLoop_spec H _ _ fuel 0 g h
  rfl

/-- The genesis replay from empty maps keeps the ghost flag set and
yields well-formed maps. -/
theorem initFresh_WF (H : JSStr → JSStr) (now fuel : Nat) (g : Block)
    (h : Block.createGenesisBlock H now fuel = some g) :
    stWF (applyBlockUTXO g ⟨[], [], true⟩) := by
  have hempty : stWF (⟨[], [], true⟩ : UtxoState) :=
    ⟨List.nodup_nil, List.nodup_nil, fun a => rfl⟩
  apply applyBlock_WF _ _ hempty
  have htx := createGenesisBlock_transactions H now fuel g h
  unfold applyBlockUTXO
  rw [htx]
  rfl

/-- The ghost flag only ever decreases across a transaction fold. -/
theorem foldl_applyTx_fresh_mono (hgt : Nat) :
    ∀ (l : List Transaction) (st : UtxoState),
      ((l.foldl (applyTx hgt) st).fresh = true) → st.fresh = true := by
  intro l
  induction l with
  | nil => intro st h; exact h
  | cons x xs ih =>
    intro st h
    exact applyTx_fresh_mono hgt st x (ih _ h)

/-- The ghost flag only ever decreases across a block. -/
theorem applyBlock_fresh_mono (b : Block) (st : UtxoState)
    (h : (applyBlockUTXO b st).fresh = true) : st.fresh = true := by
  unfold applyBlockUTXO at h
  exact foldl_applyTx_fresh_mono b.header.height b.transactions st h

/-- A block-sequence replay whose final flag is still set yields
well-formed maps from well-formed maps. -/
theorem foldl_applyBlock_WF :
    ∀ (bs : List Block) (st : UtxoState), stWF st →
      ((bs.foldl (fun st b => applyBlockUTXO b st) st).fresh = true) →
      stWF (bs.foldl (fun st b => applyBlockUTXO b st) st) := by
  intro bs
  induction bs with
  | nil => intro st h _; exact h
  | cons b bs ih =>
    intro st h hfr
    have hmono : ∀ (l : List Block) (st' : UtxoState),
        ((l.foldl (fun st b => applyBlockUTXO b st) st').fresh = true) →
        st'.fresh = true := by
      intro l
      induction l with
      | nil => intro st' h'; exact h'
      | cons x xs ih2 =>
        intro st' h'
        exact applyBlock_fresh_mono x st' (ih2 _ h')
    have h1 : (applyBlockUTXO b st).fresh = true := hmono bs _ hfr
    exact ih _ (applyBlock_WF b st h h1) hfr

/-- Admitting a block whose created output keys are fresh preserves map
well-formedness of the ledger. -/
theorem addBlock_WF_preserved (H : JSStr → JSStr) (S : Block → Bool)
    (s : Blockchain) (b : Block)
    (hWF : stWF ⟨s.utxoSet, s.addressBalances, true⟩)
    (hf : s.blockFresh b = true) :
    stWF ⟨(Blockchain.addBlock H S s b).1.utxoSet,
      (Blockchain.addBlock H S s b).1.addressBalances, true⟩ := by
  rcases hcase : (Blockchain.addBlock H S s b).2 with _ | _
  · rw [addBlock_fail_state H S s b hcase]
    exact hWF
  · obtain ⟨hu, hb⟩ := addBlock_success_state H S s b hcase
    rw [hu, hb, applyBlockUTXO_feeMap]
    have hm := applyBlock_WF b ⟨s.utxoSet, s.addressBalances, true⟩ hWF hf
    exact ⟨hm.1, hm.2.1, hm.2.2⟩

/-- In every ledger state reachable through fresh admissions, the maps
are well-formed. -/
theorem reachable_stWF (H : JSStr → JSStr) (s : Blockchain)
    (hs : ReachableFresh H s) :
    stWF ⟨s.utxoSet, s.addressBalances, true⟩ := by
  induction hs with
  | init now fuel g hg =>
    have hm := initFresh_WF H now fuel g hg
    exact ⟨hm.1, hm.2.1, hm.2.2⟩
  | addTx s t hs ih =>
    obtain ⟨hu, hb⟩ := addTransaction_maps H s t
    rw [hu, hb]
    exact ih
  | addBlk s b S hs hf ih => exact addBlock_WF_preserved H S s b ih hf
  | mine s addr now fuel S hs hf ih =>
    unfold Blockchain.mineBlock
    rcases hcand : Blockchain.mineCandidate H s addr now fuel with _ | nb
    · simp only []
      obtain ⟨hu, hb⟩ := mineStage_maps H s
      rw [hu, hb]
      exact ih
    · simp only []
      have hWFstage : stWF ⟨(Blockchain.mineStage H s).utxoSet,
          (Blockchain.mineStage H s).addressBalances, true⟩ := by
        obtain ⟨hu, hb⟩ := mineStage_maps H s
        rw [hu, hb]
        exact ih
      have hfstage : (Blockchain.mineStage H s).blockFresh nb = true := by
        unfold Blockchain.blockFresh
        obtain ⟨hu, hb⟩ := mineStage_maps H s
        rw [hu, hb]
        exact hf nb hcand
      exact addBlock_WF_preserved H S (Blockchain.mineStage H s) nb
        hWFstage hfstage
  | imp s d hs hf ih =>
    unfold Blockchain.importChain
    by_cases hc : Blockchain.chainValid H
        (d.chain.map (Block.fromJSONData H 0)) = true
    · rw [if_neg (by simp [hc])]
      have hm := foldl_applyBlock_WF (d.chain.map (Block.fromJSONData H 0))
        ⟨[], [], true⟩ ⟨List.nodup_nil, List.nodup_nil, fun a => rfl⟩ hf
      exact ⟨hm.1, hm.2.1, hm.2.2⟩
    · rw [if_pos (by simpa using hc)]
      exact ih

/-- Claim C10 (amended): in every ledger state reachable from fresh
initialisation by addTransaction, and by addBlock, mineBlock and
importChain steps in which the admitted or replayed blocks only ever
create output keys absent from the unspent-output index, the derived
balance of every address equals the total amount of the unspent outputs
the index holds for it.  (Unrestricted addBlock can break the agreement
by re-admitting a transaction whose output keys are still live, in which
case the balance is incremented again while the index entry is merely
overwritten: see the counterexample.) -/
theorem balance_matches_utxos (H : JSStr → JSStr) (s : Blockchain)
    (hs : ReachableFresh H s) (a : JSStr) :
    Blockchain.getAddressBalance s a =
      ((Blockchain.getUTXOsForAddress s a).map (·.amount)).sum :=
  (reachable_stWF H s hs).2.2 a

/-- Counterexample to claim C10 as stated: two successful addBlock calls
on the fresh ledger, the second of which re-includes a transaction of the
first block, leave an address whose derived balance (100) is twice the
total amount (50) of its indexed unspent outputs. -/
theorem balance_matches_utxos_cex :
    Scenario.d1.2 = true ∧ Scenario.d2.2 = true ∧
    Scenario.txS ∈ Scenario.b1.transactions ∧
    Scenario.txS ∈ Scenario.b2.transactions ∧
    Blockchain.getAddressBalance Scenario.d2.1 Scenario.bobAddr = 100 ∧
    ((Blockchain.getUTXOsForAddress Scenario.d2.1 Scenario.bobAddr).map
      (·.amount)).sum = 50 := by
  decide

/-- Witness for the amended claim C10 at a concrete reachable state: the
ledger after pooling the two spends and mining a block satisfies the
balance agreement at the recipient address. -/
theorem balance_matches_utxos_witness :
    Blockchain.getAddressBalance Scenario.s3 Scenario.bobAddr =
      ((Blockchain.getUTXOsForAddress Scenario.s3 Scenario.bobAddr).map
        (·.amount)).sum := by
  have r0 : ReachableFresh testHash Scenario.s0 :=
    .init 1000 0 Scenario.genesis (by decide)
  have r1 : ReachableFresh testHash Scenario.s1 :=
    .addTx Scenario.s0 Scenario.tx1 r0
  have r2 : ReachableFresh testHash Scenario.s2 :=
    .addTx Scenario.s1 Scenario.tx2 r1
  have r3 : ReachableFresh testHash Scenario.s3 := by
    apply ReachableFresh.mine Scenario.s2 (js "miner-address") 3000 0
      Scenario.saveOk r2
    intro b hb
    have hmb : Blockchain.mineCandidate testHash Scenario.s2
        (js "miner-address") 3000 0 = some Scenario.minedB := by decide
    rw [hmb] at hb
    cases hb
    decide
  exact balance_matches_utxos testHash Scenario.s3 r3 Scenario.bobAddr
